import Mathlib

/-!
# Nash (Hex) game: board, connectivity check and the computer players

A shallow embedding of `Nashgame.cpp`.

* Coordinates and marks are the C++ `int`s as `Int` (callers pass negative and
  too-large coordinates to `isValidMove`/`makeMove`).  Scores are `Int` as well
  and stand for the source's `int` as long as no value leaves the 32-bit range.
  The statements about the value of a score therefore bound the size (by 1625 at
  most) and take the trial cell on the board; `Board.sum_abs_cellWeight_le` and
  `SmartPlayer.evaluateMove_range` show that every running value and the result
  then lie between `-2^31` and `2^31 - 1`.
* The board is the `vector<vector<int>>` of the source as a list of rows, and
  the `visited` matrix of the search a list of rows of Booleans.  `size` is a
  natural number: a `Board` object only exists for `n ≥ 0`.
* The class invariant of `Board` (the constructor, the copy constructor and the
  assignment operator all establish it, and no method changes the dimensions)
  is `Board.WF`: `size` rows of `size` cells each.
* Methods that mutate `*this` return the new board; `SmartPlayer` holds a
  reference to the shared board, so its loop threads the board through.
* The recursion of `dfsPathFinding` is bounded by an explicit depth argument;
  `Board.hasWon_spec` proves that the bound `size * size + 1` used by `hasWon`
  is never reached.
* The values of `std::rand()` are an arbitrary sequence `draws : Nat → Nat`
  (a single value `draw` where one call is made); the `while (true)` loop of a
  playout is bounded by an explicit number of iterations, and
  `MonteCarloPlayer.playout_post` proves that the bound used is never reached.
-/

namespace Nash

/-- Direction array `DX` (row offsets). -/
def DX : List Int := [1, 1, 0, 0, -1, -1]

/-- Direction array `DY` (column offsets). -/
def DY : List Int := [-1, 1, -1, 1, 0, 1]

/-- The `Board` class: `size` and the 2D array `board`. -/
structure Board where
  size : Nat
  board : List (List Int)
deriving DecidableEq

/-- Class invariant: the array has `size` rows of `size` cells. -/
def Board.WF (b : Board) : Prop :=
  b.board.length = b.size ∧ ∀ row ∈ b.board, row.length = b.size

/-- All cells hold one of the three marks Empty (0), White (1), Black (-1). -/
def Board.Marks (b : Board) : Prop :=
  ∀ row ∈ b.board, ∀ v ∈ row, v = 0 ∨ v = 1 ∨ v = -1

/-- Constructor `Board(int n)` for `n ≥ 0`: all cells empty. -/
def Board.empty (n : Nat) : Board :=
  { size := n, board := List.replicate n (List.replicate n 0) }

/-- The array read `board[x][y]`; the source only evaluates it under a bounds guard. -/
def Board.cell (b : Board) (x y : Int) : Int :=
  (b.board.getD x.toNat []).getD y.toNat 0

/-- The array write `board[x][y] = v`. -/
def Board.setCell (b : Board) (x y : Int) (v : Int) : Board :=
  { b with board := b.board.set x.toNat ((b.board.getD x.toNat []).set y.toNat v) }

/-- Method `Board::getSize`. -/
def Board.getSize (b : Board) : Int := b.size

/-- Method `Board::getValue`. -/
def Board.getValue (b : Board) (x y : Int) : Int :=
  if x ≥ 0 ∧ x < b.size ∧ y ≥ 0 ∧ y < b.size then b.cell x y else -999

/-- Method `Board::isValidMove`. -/
def Board.isValidMove (b : Board) (x y : Int) : Bool :=
  decide (x ≥ 0) && decide (x < b.size) && decide (y ≥ 0) && decide (y < b.size)
    && decide (b.cell x y = 0)

/-- Method `Board::makeMove`: the returned flag and the board after the call. -/
def Board.makeMove (b : Board) (x y : Int) (playerType : Int) : Bool × Board :=
  if b.isValidMove x y then (true, b.setCell x y playerType) else (false, b)

/-- Method `Board::isFull`. -/
def Board.isFull (b : Board) : Bool :=
  (List.range b.size).all fun i => (List.range b.size).all fun j =>
    !decide (b.cell i j = 0)

/-- Method `Board::hasCompleteLineWin`. -/
def Board.hasCompleteLineWin (b : Board) (playerType : Int) : Bool :=
  if playerType = 1 then
    (List.range b.size).any fun row => (List.range b.size).all fun col =>
      decide (b.cell row col = playerType)
  else if playerType = -1 then
    (List.range b.size).any fun col => (List.range b.size).all fun row =>
      decide (b.cell row col = playerType)
  else false

/-- Method `Board::getNeighbours`: the stack it returns, listed in push order
(the top of the stack is the last element). -/
def Board.getNeighbours (b : Board) (playerType x y : Int) : List (Int × Int) :=
  (List.range 6).filterMap fun i =>
    let nx := x + DX.getD i 0
    let ny := y + DY.getD i 0
    if nx ≥ 0 ∧ nx < b.size ∧ ny ≥ 0 ∧ ny < b.size ∧ b.cell nx ny = playerType then
      some (nx, ny)
    else none

/-- The `visited` matrix of `hasWon`: `size × size`, all false. -/
def visitedInit (size : Nat) : List (List Bool) :=
  List.replicate size (List.replicate size false)

/-- The read `visited[x][y]`. -/
def visitedGet (visited : List (List Bool)) (x y : Int) : Bool :=
  (visited.getD x.toNat []).getD y.toNat false

/-- The write `visited[x][y] = true`. -/
def visitedMark (visited : List (List Bool)) (x y : Int) : List (List Bool) :=
  visited.set x.toNat ((visited.getD x.toNat []).set y.toNat true)

/-- The `while (!neighbors.empty())` loop of `dfsPathFinding`, over the cells in
the order they are popped; `dfs` is the recursive call. -/
def exploreNeighbours (dfs : Int → Int → List (List Bool) → Option (Bool × List (List Bool))) :
    List (Int × Int) → List (List Bool) → Option (Bool × List (List Bool))
  | [], visited => some (false, visited)
  | (nx, ny) :: rest, visited =>
    if visitedGet visited nx ny then exploreNeighbours dfs rest visited
    else
      match dfs nx ny visited with
      | none => none
      | some (true, visited1) => some (true, visited1)
      | some (false, visited1) => exploreNeighbours dfs rest visited1

/-- Method `Board::dfsPathFinding`, with the `visited` matrix passed and returned.
The first argument bounds the recursion depth; `none` means it was reached. -/
def Board.dfsPathFinding (b : Board) (playerType : Int) :
    Nat → Int → Int → List (List Bool) → Option (Bool × List (List Bool))
  | 0, _, _, _ => none
  | fuel + 1, x, y, visited =>
    let visited := visitedMark visited x y
    if (playerType = 1 ∧ y = (b.size : Int) - 1) ∨ (playerType = -1 ∧ x = (b.size : Int) - 1) then
      some (true, visited)
    else
      exploreNeighbours (b.dfsPathFinding playerType fuel)
        (b.getNeighbours playerType x y).reverse visited

/-- The `for` loop of `hasWon` over the starting edge; `start i` is the `i`-th
cell of that edge. -/
def Board.hasWonLoop (b : Board) (playerType : Int) (fuel : Nat) (start : Nat → Int × Int) :
    List Nat → List (List Bool) → Option Bool
  | [], _ => some false
  | i :: rest, visited =>
    if b.cell (start i).1 (start i).2 = playerType then
      match b.dfsPathFinding playerType fuel (start i).1 (start i).2 visited with
      | none => none
      | some (true, _) => some true
      | some (false, visited1) => b.hasWonLoop playerType fuel start rest visited1
    else b.hasWonLoop playerType fuel start rest visited

/-- Method `Board::hasWon` with an explicit bound on the recursion depth of the search. -/
def Board.hasWonFuel (b : Board) (fuel : Nat) (playerType : Int) : Option Bool :=
  if playerType = 1 then
    b.hasWonLoop playerType fuel (fun i => ((i : Int), 0)) (List.range b.size)
      (visitedInit b.size)
  else if playerType = -1 then
    b.hasWonLoop playerType fuel (fun j => (0, (j : Int))) (List.range b.size)
      (visitedInit b.size)
  else some false

/-- Method `Board::hasWon`.  A nested call of the search is only made on an
unvisited cell, so its depth never exceeds `size * size`; `Board.hasWon_spec`
below shows that the bound is never reached, so the default is never taken. -/
def Board.hasWon (b : Board) (playerType : Int) : Bool :=
  (b.hasWonFuel (b.size * b.size + 1) playerType).getD false

/-- Method `Board::evaluatePosition`.  The source accumulates `score` in `int`,
the model in `Int`: the two agree while no running value leaves the 32-bit
range, which holds for every board of size at most 1625
(`Board.sum_abs_cellWeight_le`); from size 1626 on the sum can exceed
`2^31 - 1`. -/
def Board.evaluatePosition (b : Board) (playerType : Int) : Int :=
  if playerType = 1 then
    (List.range b.size).foldl (fun score i =>
      (List.range b.size).foldl (fun score j =>
        if b.cell i j = playerType then score + ((j : Int) + 1)
        else if b.cell i j = -playerType then score - ((j : Int) + 1)
        else score) score) 0
  else
    (List.range b.size).foldl (fun score i =>
      (List.range b.size).foldl (fun score j =>
        if b.cell i j = playerType then score + ((i : Int) + 1)
        else if b.cell i j = -playerType then score - ((i : Int) + 1)
        else score) score) 0

/-- The list `emptyCells` built by `RandomPlayer::getMove`: all cells with
`isValidMove`, in row-major order. -/
def emptyCells (b : Board) : List (Int × Int) :=
  (List.range b.size).flatMap fun i => (List.range b.size).filterMap fun j =>
    if b.isValidMove i j then some ((i : Int), (j : Int)) else none

/-- Method `SmartPlayer::evaluateMove` on the current state of the shared board.
The source computes `score` in `int`, the model in `Int`: the two agree while
`x * 5`, `y * 5` and the sums stay in the 32-bit range, which holds for size at
most 1625 and a trial cell on the board (`SmartPlayer.evaluateMove_range`). -/
def SmartPlayer.evaluateMove (board : Board) (playerType : Int) (x y : Int) : Int :=
  if board.hasWon playerType then 10000
  else
    let score : Int := 0
    let neighbors := board.getNeighbours playerType x y
    let score := score + (neighbors.length : Int) * 10
    let score := if playerType = 1 then score + y * 5 else score + x * 5
    score + board.evaluatePosition playerType

/-- Loop state of `SmartPlayer::getMove`: the shared board, `bestMove`, `bestScore`. -/
structure SmartState where
  board : Board
  bestMove : Int × Int
  bestScore : Int
deriving DecidableEq

/-- Body of the inner loop of `SmartPlayer::getMove` at cell `(i, j)`. -/
def SmartPlayer.tryCell (playerType : Int) (st : SmartState) (i j : Nat) : SmartState :=
  if st.board.isValidMove i j then
    let board1 := (st.board.makeMove i j playerType).2
    let score := SmartPlayer.evaluateMove board1 playerType i j
    let board2 := (board1.makeMove i j 0).2
    if score > st.bestScore then
      { board := board2, bestMove := ((i : Int), (j : Int)), bestScore := score }
    else { st with board := board2 }
  else st

/-- Method `SmartPlayer::getMove`: the final loop state (the move returned is
`bestMove`, and `board` is the shared board after the call). -/
def SmartPlayer.getMoveState (board : Board) (playerType : Int) : SmartState :=
  (List.range board.size).foldl (fun st i =>
    (List.range board.size).foldl (fun st j => SmartPlayer.tryCell playerType st i j) st)
    { board := board, bestMove := (-1, -1), bestScore := -999999 }

/-- Method `SmartPlayer::getMove`: the returned coordinate. -/
def SmartPlayer.getMove (board : Board) (playerType : Int) : Int × Int :=
  (SmartPlayer.getMoveState board playerType).bestMove

/-! ## Specification vocabulary and concrete positions -/

/-- In-bounds coordinates. -/
def Board.InBounds (b : Board) (c : Int × Int) : Prop :=
  0 ≤ c.1 ∧ c.1 < b.size ∧ 0 ≤ c.2 ∧ c.2 < b.size

/-- Cell `d` is cell `c` plus one of the six offsets `(DX[i], DY[i])`. -/
def Adjacent (c d : Int × Int) : Prop :=
  ∃ i, i < 6 ∧ d = (c.1 + DX.getD i 0, c.2 + DY.getD i 0)

/-- A matrix with `n` rows of `n` entries. -/
def Square {α : Type} (n : Nat) (m : List (List α)) : Prop :=
  m.length = n ∧ ∀ row ∈ m, row.length = n

/-- `d` is one of the cells `getNeighbours` returns for `c`. -/
def Board.Link (b : Board) (p : Int) (c d : Int × Int) : Prop :=
  d ∈ b.getNeighbours p c.1 c.2

/-- The exit test of `dfsPathFinding`: the cell lies on the far edge of side `p`. -/
def Board.Target (b : Board) (p : Int) (c : Int × Int) : Prop :=
  (p = 1 ∧ c.2 = (b.size : Int) - 1) ∨ (p = -1 ∧ c.1 = (b.size : Int) - 1)

/-- Some far-edge cell can be reached from `c` along neighbour links. -/
def Board.Wins (b : Board) (p : Int) (c : Int × Int) : Prop :=
  ∃ t, Relation.ReflTransGen (b.Link p) c t ∧ b.Target p t

/-- The in-bounds cells not yet marked in `vis`. -/
def unvisited (n : Nat) (vis : List (List Bool)) : Finset (Int × Int) :=
  (Finset.Ico (0 : Int) n ×ˢ Finset.Ico (0 : Int) n).filter
    (fun c => visitedGet vis c.1 c.2 = false)

/-- Every in-bounds cell marked in `vis` is marked in `vis1`. -/
def VisLe (b : Board) (vis vis1 : List (List Bool)) : Prop :=
  ∀ c, b.InBounds c → visitedGet vis c.1 c.2 = true → visitedGet vis1 c.1 c.2 = true

/-- Cells marked in `vis1` but not in `vis` are off the far edge and all their
neighbours are marked in `vis1`. -/
def ExploredNew (b : Board) (p : Int) (vis vis1 : List (List Bool)) : Prop :=
  ∀ c, b.InBounds c → visitedGet vis1 c.1 c.2 = true → visitedGet vis c.1 c.2 = false →
    ¬ b.Target p c ∧ ∀ d, b.Link p c d → visitedGet vis1 d.1 d.2 = true

/-- Every marked cell is off the far edge and all its neighbours are marked. -/
def Closed (b : Board) (p : Int) (vis : List (List Bool)) : Prop :=
  ∀ c, b.InBounds c → visitedGet vis c.1 c.2 = true →
    ¬ b.Target p c ∧ ∀ d, b.Link p c d → visitedGet vis d.1 d.2 = true

/-- What a call `dfsPathFinding(p, x, y, vis)` guarantees about its result. -/
def DfsPost (b : Board) (p x y : Int) (vis : List (List Bool))
    (res : Option (Bool × List (List Bool))) : Prop :=
  ∃ r vis1, res = some (r, vis1) ∧ Square b.size vis1 ∧ VisLe b (visitedMark vis x y) vis1 ∧
    (r = true → b.Wins p (x, y)) ∧
    (r = false → ExploredNew b p vis vis1 ∧ ¬ b.Target p (x, y) ∧
      ∀ d, b.Link p (x, y) d → visitedGet vis1 d.1 d.2 = true)

/-- What the neighbour loop guarantees about its result. -/
def LoopPost (b : Board) (p : Int) (l : List (Int × Int)) (vis : List (List Bool))
    (res : Option (Bool × List (List Bool))) : Prop :=
  ∃ r vis1, res = some (r, vis1) ∧ Square b.size vis1 ∧ VisLe b vis vis1 ∧
    (r = true → ∃ d ∈ l, b.Wins p d) ∧
    (r = false → ExploredNew b p vis vis1 ∧ ∀ d ∈ l, visitedGet vis1 d.1 d.2 = true)

/-- The `i`-th cell of the starting edge of side `p`. -/
def startCell (p : Int) (i : Nat) : Int × Int :=
  if p = 1 then ((i : Int), 0) else (0, (i : Int))

/-- The chain of the connection-win definition: every cell in bounds and marked
`s`, consecutive cells one offset apart, the first cell on the starting edge of
side `s` and the last one on the opposite edge. -/
def Board.WinningChain (b : Board) (s : Int) (chain : List (Int × Int)) : Prop :=
  (∀ c ∈ chain, b.InBounds c ∧ b.cell c.1 c.2 = s) ∧
  List.Chain' Adjacent chain ∧
  (∃ c0 ∈ chain.head?, (s = 1 ∧ c0.2 = 0) ∨ (s = -1 ∧ c0.1 = 0)) ∧
  (∃ ck ∈ chain.getLast?,
    (s = 1 ∧ ck.2 = (b.size : Int) - 1) ∨ (s = -1 ∧ ck.1 = (b.size : Int) - 1))

/-- Scenario A: size 3, SideA on (0,0), (1,0), (2,0). -/
def scenarioA : Board := { size := 3, board := [[1, 0, 0], [1, 0, 0], [1, 0, 0]] }

/-- Scenario B: size 3, SideA on (0,0), (0,1), (0,2). -/
def scenarioB : Board := { size := 3, board := [[1, 1, 1], [0, 0, 0], [0, 0, 0]] }

/-- Scenario C at size 3: SideB on the whole top and bottom rows, nothing between. -/
def scenarioC : Board := { size := 3, board := [[-1, -1, -1], [0, 0, 0], [-1, -1, -1]] }

/-- A position with exactly one winning cell for SideA, namely (2,2). -/
def scenarioD : Board := { size := 3, board := [[0, 0, 0], [0, 0, -1], [1, 1, 0]] }

/-- Size 2 with a single SideB stone on (0,0). -/
def cornerBoard : Board := { size := 2, board := [[-1, 0], [0, 0]] }

/-- Size 2 with SideB on the whole column 0 and nothing else. -/
def blackColumn : Board := { size := 2, board := [[-1, 0], [-1, 0]] }

/-- Size 1 with a SideA stone on its only cell. -/
def occupiedBoard : Board := { size := 1, board := [[1]] }

/-- The score of the claim: `evaluateMove` on the board that differs from `b` only
by the mark `s` on cell `c`. -/
def SmartPlayer.isolatedScore (b : Board) (s : Int) (c : Int × Int) : Int :=
  SmartPlayer.evaluateMove (b.makeMove c.1 c.2 s).2 s c.1 c.2

/-- A later state of the shared board: same size, still well formed, and no
occupied in-bounds cell has become empty. -/
def Board.Keeps (b b1 : Board) : Prop :=
  b1.size = b.size ∧ b1.WF ∧ ∀ x y : Int, b.InBounds (x, y) → b.cell x y ≠ 0 → b1.cell x y ≠ 0

/-- Constructor `Board(int n)` for any `int`.  For `n ≥ 0` the member `board` is
resized to `n` rows of `n` zeros.  For `n < 0` the conversion of `n` to the
unsigned size type is larger than `max_size()`, so building the row
`std::vector<int>(n, 0)` throws `std::length_error` and no object exists: `none`. -/
def Board.construct (n : Int) : Option Board :=
  if n < 0 then none else some (Board.empty n.toNat)

/-- Method `RandomPlayer::getMove`; `draw` is the value returned by `std::rand()`.
The read `emptyCells[index]` is in range because `index < emptyCells.size()`. -/
def RandomPlayer.getMove (board : Board) (draw : Nat) : Int × Int :=
  let cells := emptyCells board
  if cells ≠ [] then cells.getD (draw % cells.length) (-1, -1) else (-1, -1)

/-- The six neighbour coordinates of `(x, y)` in the order of the offset table. -/
def offsetCells (x y : Int) : List (Int × Int) :=
  [(x + 1, y - 1), (x + 1, y + 1), (x, y - 1), (x, y + 1), (x - 1, y), (x - 1, y + 1)]

/-- Size 2 with SideA on the diagonal cells (0,0) and (1,1). -/
def diagonalBoard : Board := { size := 2, board := [[1, 0], [0, 1]] }

/-- The progress coordinate of cell `(i, j)` for side `s`: the column index for
SideA (1), the row index otherwise. -/
def progress (s : Int) (i j : Nat) : Int := if s = 1 then (j : Int) else (i : Int)

/-- Contribution of cell `(i, j)` to the global position evaluation for side `s`:
`+(p + 1)` on a cell marked `s`, `-(p + 1)` on a cell marked `-s`, where `p` is
the progress coordinate. -/
def Board.cellWeight (b : Board) (s : Int) (i j : Nat) : Int :=
  if b.cell i j = s then progress s i j + 1
  else if b.cell i j = -s then -(progress s i j + 1)
  else 0

/-- The sum of the cell contributions over the whole board. -/
def Board.positionSum (b : Board) (s : Int) : Int :=
  Finset.sum (Finset.range b.size) fun i =>
    Finset.sum (Finset.range b.size) fun j => b.cellWeight s i j

/-- The score as a sum of four terms: the bonus 10000 if `hasWon(s)`, ten times
the number of neighbours of `(x, y)` marked `s`, five times the progress
coordinate of `(x, y)`, and `evaluatePosition(s)`. -/
def SmartPlayer.fourTermScore (b : Board) (s x y : Int) : Int :=
  (if b.hasWon s then 10000 else 0) + 10 * ((b.getNeighbours s x y).length : Int)
    + 5 * (if s = 1 then y else x) + b.evaluatePosition s

/-- Size 27 with SideB on column 0 and SideA everywhere else. -/
def wideBoard : Board := { size := 27, board := List.replicate 27 (-1 :: List.replicate 26 1) }

/-- Size 126 with cell (0,0) empty and SideB on every other cell. -/
def bigBoard : Board :=
  { size := 126
    board := (0 :: List.replicate 125 (-1)) :: List.replicate 125 (List.replicate 126 (-1)) }

/-- Board `b1` has the same mark as `b` on every in-bounds cell that is occupied in `b`. -/
def Board.Agree (b b1 : Board) : Prop :=
  ∀ x y : Int, b.InBounds (x, y) → b.cell x y ≠ 0 → b1.cell x y = b.cell x y

/-- The move recorded in the loop state of `SmartPlayer::getMove` is a legal
move of the board `b` the call started from. -/
def SmartState.Picked (b : Board) (st : SmartState) : Prop :=
  b.isValidMove st.bestMove.1 st.bestMove.2 = true

/-- Loop state of one playout of `MonteCarloPlayer::runSimulations`: the copy
`tempBoard`, `currentPlayer` and the number of `std::rand()` calls made so far.
The last two fields are bookkeeping used to state properties of the loop: the
stones placed so far (cell and side, in order) and the number of iterations of
the `while` loop started so far. -/
structure PlayoutState where
  tempBoard : Board
  currentPlayer : Int
  drawn : Nat
  moves : List ((Int × Int) × Int)
  iterations : Nat

/-- The `while (true)` loop of one playout in `MonteCarloPlayer::runSimulations`.
`draws k` is the value of the `k`-th call of `std::rand()`; the first argument
bounds the number of iterations, `none` means the bound was reached.  The result
is the flag "counted as a win" and the final loop state. -/
def MonteCarloPlayer.playout (playerType : Int) (draws : Nat → Nat) :
    Nat → PlayoutState → Option (Bool × PlayoutState)
  | 0, _ => none
  | fuel + 1, st =>
    let st := { st with iterations := st.iterations + 1 }
    if st.tempBoard.hasWon st.currentPlayer then
      some (decide (st.currentPlayer = playerType), st)
    else if st.tempBoard.isFull then some (false, st)
    else
      let cells := emptyCells st.tempBoard
      if cells ≠ [] then
        let index := draws st.drawn % cells.length
        let c := cells.getD index (-1, -1)
        MonteCarloPlayer.playout playerType draws fuel
          { tempBoard := (st.tempBoard.makeMove c.1 c.2 st.currentPlayer).2
            currentPlayer := -st.currentPlayer
            drawn := st.drawn + 1
            moves := st.moves ++ [(c, st.currentPlayer)]
            iterations := st.iterations }
      else
        MonteCarloPlayer.playout playerType draws fuel
          { st with currentPlayer := -st.currentPlayer }

/-- The state in which a playout starts: a copy of `board`, the opponent to move. -/
def MonteCarloPlayer.playoutStart (board : Board) (playerType : Int) (drawn : Nat) :
    PlayoutState :=
  { tempBoard := board, currentPlayer := -playerType, drawn := drawn, moves := [], iterations := 0 }

/-- The constant `SIMULATIONS`. -/
def MonteCarloPlayer.SIMULATIONS : Nat := 100

/-- Method `MonteCarloPlayer::runSimulations`: the number of wins and the number of
`std::rand()` calls made so far.  Each playout is given the iteration bound
`(number of empty cells) + 1`, which `MonteCarloPlayer.playout_post` shows is never
reached. -/
def MonteCarloPlayer.runSimulations (board : Board) (playerType : Int) (draws : Nat → Nat)
    (drawn : Nat) : Option (Int × Nat) :=
  (List.range MonteCarloPlayer.SIMULATIONS).foldl (fun acc _ =>
    match acc with
    | none => none
    | some (wins, drawn) =>
      match MonteCarloPlayer.playout playerType draws ((emptyCells board).length + 1)
          (MonteCarloPlayer.playoutStart board playerType drawn) with
      | none => none
      | some (win, st) => some (if win then wins + 1 else wins, st.drawn))
    (some (0, drawn))

/-- Row-major order of cells: an earlier row, or the same row and an earlier column. -/
def RowMajorLt (c d : Int × Int) : Prop := c.1 < d.1 ∨ (c.1 = d.1 ∧ c.2 < d.2)

/-- The cell a playout picks in state `st`: entry `draws st.drawn mod k` of the
list of the `k` empty cells of its board. -/
def PlayoutState.pick (draws : Nat → Nat) (st : PlayoutState) : Int × Int :=
  (emptyCells st.tempBoard).getD (draws st.drawn % (emptyCells st.tempBoard).length) (-1, -1)

/-- The loop state after an iteration of the playout that places a stone. -/
def PlayoutState.next (draws : Nat → Nat) (st : PlayoutState) : PlayoutState :=
  { tempBoard := st.tempBoard.setCell (st.pick draws).1 (st.pick draws).2 st.currentPlayer
    currentPlayer := -st.currentPlayer
    drawn := st.drawn + 1
    moves := st.moves ++ [(st.pick draws, st.currentPlayer)]
    iterations := st.iterations + 1 }

/-- State of the search of `hasWon` with bookkeeping: the `visited` matrix and
the list of the cells on which `dfsPathFinding` has been entered, in order. -/
structure SearchLog where
  visited : List (List Bool)
  entered : List (Int × Int)
deriving DecidableEq

/-- The `while (!neighbors.empty())` loop of `dfsPathFinding`, as
`exploreNeighbours`, with the log of entries threaded through. -/
def exploreNeighboursLog (dfs : Int → Int → SearchLog → Option (Bool × SearchLog)) :
    List (Int × Int) → SearchLog → Option (Bool × SearchLog)
  | [], st => some (false, st)
  | (nx, ny) :: rest, st =>
    if visitedGet st.visited nx ny then exploreNeighboursLog dfs rest st
    else
      match dfs nx ny st with
      | none => none
      | some (true, st1) => some (true, st1)
      | some (false, st1) => exploreNeighboursLog dfs rest st1

/-- Method `Board::dfsPathFinding`, as `Board.dfsPathFinding`, recording each entry
`(x, y)` in the log. -/
def Board.dfsPathFindingLog (b : Board) (playerType : Int) :
    Nat → Int → Int → SearchLog → Option (Bool × SearchLog)
  | 0, _, _, _ => none
  | fuel + 1, x, y, st =>
    let st : SearchLog :=
      { visited := visitedMark st.visited x y, entered := st.entered ++ [(x, y)] }
    if (playerType = 1 ∧ y = (b.size : Int) - 1) ∨ (playerType = -1 ∧ x = (b.size : Int) - 1) then
      some (true, st)
    else
      exploreNeighboursLog (b.dfsPathFindingLog playerType fuel)
        (b.getNeighbours playerType x y).reverse st

/-- The `for` loop of `hasWon`, as `Board.hasWonLoop`, with the log of entries. -/
def Board.hasWonLoopLog (b : Board) (playerType : Int) (fuel : Nat) (start : Nat → Int × Int) :
    List Nat → SearchLog → Option (Bool × SearchLog)
  | [], st => some (false, st)
  | i :: rest, st =>
    if b.cell (start i).1 (start i).2 = playerType then
      match b.dfsPathFindingLog playerType fuel (start i).1 (start i).2 st with
      | none => none
      | some (true, st1) => some (true, st1)
      | some (false, st1) => b.hasWonLoopLog playerType fuel start rest st1
    else b.hasWonLoopLog playerType fuel start rest st

/-- Method `Board::hasWon`, as `Board.hasWonFuel`, returning also the cells on which
`dfsPathFinding` was entered during the call, in order. -/
def Board.hasWonLog (b : Board) (fuel : Nat) (playerType : Int) :
    Option (Bool × List (Int × Int)) :=
  if playerType = 1 then
    (b.hasWonLoopLog playerType fuel (fun i => ((i : Int), 0)) (List.range b.size)
      { visited := visitedInit b.size, entered := [] }).map fun r => (r.1, r.2.entered)
  else if playerType = -1 then
    (b.hasWonLoopLog playerType fuel (fun j => (0, (j : Int))) (List.range b.size)
      { visited := visitedInit b.size, entered := [] }).map fun r => (r.1, r.2.entered)
  else some (false, [])

/-- Size 3 with SideA on (0,0), (1,1) and (2,0). -/
def zigzagBoard : Board := { size := 3, board := [[1, 0, 0], [0, 1, 0], [1, 0, 0]] }

/-- Size 2 with SideA on the diagonal (0,0), (1,1) and SideB on (0,1), (1,0). -/
def crossBoard : Board := { size := 2, board := [[1, -1], [-1, 1]] }

/-- Size 2 without empty cell: SideA on the top row, SideB on the bottom row. -/
def fullWonBoard : Board := { size := 2, board := [[1, 1], [-1, -1]] }

/-! ## Matrix reads and writes -/

theorem matrix_getD_set {α : Type} (m : List (List α)) (x y x1 y1 : Nat) (v d : α) :
    ((m.set x ((m.getD x []).set y v)).getD x1 []).getD y1 d =
      if x1 = x ∧ y1 = y ∧ x < m.length ∧ y < (m.getD x []).length then v
      else (m.getD x1 []).getD y1 d := by
  by_cases hx : x1 = x
  · subst hx
    by_cases hlt : x1 < m.length
    · have h1 : m.getD x1 [] = m[x1] := by simp [List.getD_eq_getElem?_getD, hlt]
      by_cases hy : y1 = y
      · subst hy
        by_cases hly : y1 < m[x1].length
        · simp [List.getD_eq_getElem?_getD, List.getElem?_set, hlt, hly]
        · have h3 : m[x1][y1]? = none := by simp; omega
          simp [List.getD_eq_getElem?_getD, List.getElem?_set, hlt, hly, h3]
      · simp [List.getD_eq_getElem?_getD, List.getElem?_set, hlt, hy, Ne.symm hy]
    · have h2 : m[x1]? = none := by simp; omega
      simp [List.getD_eq_getElem?_getD, List.getElem?_set, hlt, h2]
  · simp [List.getD_eq_getElem?_getD, List.getElem?_set, hx, Ne.symm hx]

theorem square_row_length {α : Type} {n : Nat} {m : List (List α)} (h : Square n m)
    {x : Nat} (hx : x < n) : (m.getD x []).length = n := by
  have hlt : x < m.length := by rw [h.1]; exact hx
  have h1 : m.getD x [] = m[x] := by simp [List.getD_eq_getElem?_getD, hlt]
  rw [h1]
  exact h.2 _ (List.getElem_mem hlt)

theorem square_set {α : Type} {n : Nat} {m : List (List α)} (h : Square n m)
    (x y : Nat) (v : α) : Square n (m.set x ((m.getD x []).set y v)) := by
  refine ⟨by simpa using h.1, ?_⟩
  intro row hrow
  by_cases hx : x < m.length
  · rcases List.mem_or_eq_of_mem_set hrow with h1 | h1
    · exact h.2 row h1
    · subst h1
      have h1 : m.getD x [] = m[x] := by simp [List.getD_eq_getElem?_getD, hx]
      rw [List.length_set, h1]
      exact h.2 _ (List.getElem_mem hx)
  · rw [List.set_eq_of_length_le (by omega)] at hrow
    exact h.2 row hrow

theorem square_replicate {α : Type} (n : Nat) (v : α) :
    Square n (List.replicate n (List.replicate n v)) := by
  refine ⟨by simp, ?_⟩
  intro row hrow
  rw [(List.mem_replicate.mp hrow).2]
  simp

theorem toNat_inj_of_nonneg {x y : Int} (hx : 0 ≤ x) (hy : 0 ≤ y) (h : x.toNat = y.toNat) :
    x = y := by
  omega

/-! ## The visited matrix -/

theorem visitedGet_init (n : Nat) (x y : Int) : visitedGet (visitedInit n) x y = false := by
  unfold visitedGet visitedInit
  simp only [List.getD_eq_getElem?_getD]
  by_cases hx : x.toNat < n
  · by_cases hy : y.toNat < n
    · simp [List.getElem?_replicate, hx, hy]
    · simp [List.getElem?_replicate, hx, hy]
  · simp [List.getElem?_replicate, hx]

theorem square_visitedInit (n : Nat) : Square n (visitedInit n) := square_replicate n false

theorem square_visitedMark {n : Nat} {vis : List (List Bool)} (h : Square n vis) (x y : Int) :
    Square n (visitedMark vis x y) := square_set h _ _ _

theorem visitedGet_mark_mono (vis : List (List Bool)) (x y x1 y1 : Int)
    (h : visitedGet vis x1 y1 = true) : visitedGet (visitedMark vis x y) x1 y1 = true := by
  unfold visitedGet visitedMark at *
  rw [matrix_getD_set]
  split
  · rfl
  · exact h

theorem visitedGet_mark_self {b : Board} {vis : List (List Bool)} (h : Square b.size vis)
    {x y : Int} (hc : b.InBounds (x, y)) : visitedGet (visitedMark vis x y) x y = true := by
  obtain ⟨h1, h2, h3, h4⟩ := hc
  simp only at h1 h2 h3 h4
  unfold visitedGet visitedMark
  rw [matrix_getD_set, if_pos]
  refine ⟨rfl, rfl, ?_, ?_⟩
  · rw [h.1]; omega
  · rw [square_row_length h (by omega)]; omega

theorem visitedGet_mark_ne {b : Board} (vis : List (List Bool)) {x y x1 y1 : Int}
    (hc : b.InBounds (x, y)) (hc1 : b.InBounds (x1, y1)) (hne : (x1, y1) ≠ (x, y)) :
    visitedGet (visitedMark vis x y) x1 y1 = visitedGet vis x1 y1 := by
  obtain ⟨h1, h2, h3, h4⟩ := hc
  obtain ⟨k1, k2, k3, k4⟩ := hc1
  simp only at h1 h2 h3 h4 k1 k2 k3 k4
  unfold visitedGet visitedMark
  rw [matrix_getD_set, if_neg]
  rintro ⟨e1, e2, -, -⟩
  apply hne
  rw [toNat_inj_of_nonneg k1 h1 e1, toNat_inj_of_nonneg k3 h3 e2]

/-! ## Board cells -/

theorem Board.setCell_size (b : Board) (x y v : Int) : (b.setCell x y v).size = b.size := rfl

theorem Board.WF_iff_square (b : Board) : b.WF ↔ Square b.size b.board := Iff.rfl

theorem Board.WF_setCell {b : Board} (h : b.WF) (x y v : Int) : (b.setCell x y v).WF :=
  square_set h _ _ _

theorem Board.cell_setCell_self {b : Board} (h : b.WF) {x y : Int} (hc : b.InBounds (x, y))
    (v : Int) : (b.setCell x y v).cell x y = v := by
  obtain ⟨h1, h2, h3, h4⟩ := hc
  simp only at h1 h2 h3 h4
  unfold Board.cell Board.setCell
  simp only
  rw [matrix_getD_set, if_pos]
  refine ⟨rfl, rfl, ?_, ?_⟩
  · rw [h.1]; omega
  · rw [square_row_length h (by omega)]; omega

theorem Board.cell_setCell_ne (b : Board) {x y x1 y1 : Int} (v : Int)
    (hc : b.InBounds (x, y)) (hc1 : b.InBounds (x1, y1)) (hne : (x1, y1) ≠ (x, y)) :
    (b.setCell x y v).cell x1 y1 = b.cell x1 y1 := by
  obtain ⟨h1, h2, h3, h4⟩ := hc
  obtain ⟨k1, k2, k3, k4⟩ := hc1
  simp only at h1 h2 h3 h4 k1 k2 k3 k4
  unfold Board.cell Board.setCell
  simp only
  rw [matrix_getD_set, if_neg]
  rintro ⟨e1, e2, -, -⟩
  apply hne
  rw [toNat_inj_of_nonneg k1 h1 e1, toNat_inj_of_nonneg k3 h3 e2]

/-! ## The neighbour graph of one side -/

theorem Board.mem_getNeighbours (b : Board) (p x y : Int) (d : Int × Int) :
    d ∈ b.getNeighbours p x y ↔ Adjacent (x, y) d ∧ b.InBounds d ∧ b.cell d.1 d.2 = p := by
  unfold Board.getNeighbours Adjacent Board.InBounds
  simp only [List.mem_filterMap, List.mem_range]
  constructor
  · rintro ⟨i, hi, h⟩
    split at h
    · rename_i hc
      simp only [Option.some.injEq] at h
      subst h
      exact ⟨⟨i, hi, rfl⟩, ⟨hc.1, hc.2.1, hc.2.2.1, hc.2.2.2.1⟩, hc.2.2.2.2⟩
    · simp at h
  · rintro ⟨⟨i, hi, rfl⟩, ⟨h1, h2, h3, h4⟩, h5⟩
    refine ⟨i, hi, ?_⟩
    rw [if_pos ⟨h1, h2, h3, h4, h5⟩]

theorem Board.Link.inBounds {b : Board} {p : Int} {c d : Int × Int} (h : b.Link p c d) :
    b.InBounds d := ((b.mem_getNeighbours p c.1 c.2 d).mp h).2.1

theorem Board.Link.cell {b : Board} {p : Int} {c d : Int × Int} (h : b.Link p c d) :
    b.cell d.1 d.2 = p := ((b.mem_getNeighbours p c.1 c.2 d).mp h).2.2

theorem Board.Link.adjacent {b : Board} {p : Int} {c d : Int × Int} (h : b.Link p c d) :
    Adjacent c d := ((b.mem_getNeighbours p c.1 c.2 d).mp h).1

/-! ## Counting unvisited cells -/

theorem mem_unvisited (b : Board) (vis : List (List Bool)) (c : Int × Int) :
    c ∈ unvisited b.size vis ↔ b.InBounds c ∧ visitedGet vis c.1 c.2 = false := by
  unfold unvisited Board.InBounds
  simp only [Finset.mem_filter, Finset.mem_product, Finset.mem_Ico]
  tauto

theorem unvisited_card_le (n : Nat) (vis : List (List Bool)) :
    (unvisited n vis).card ≤ n * n := by
  unfold unvisited
  refine le_trans (Finset.card_filter_le _ _) ?_
  simp [Finset.card_product]

theorem VisLe.refl (b : Board) (vis : List (List Bool)) : VisLe b vis vis := fun _ _ h => h

theorem VisLe.trans {b : Board} {v1 v2 v3 : List (List Bool)} (h12 : VisLe b v1 v2)
    (h23 : VisLe b v2 v3) : VisLe b v1 v3 := fun c hc h => h23 c hc (h12 c hc h)

theorem VisLe.mark (b : Board) (vis : List (List Bool)) (x y : Int) :
    VisLe b vis (visitedMark vis x y) := fun c _ h => visitedGet_mark_mono vis x y c.1 c.2 h

theorem VisLe.card_le {b : Board} {vis vis1 : List (List Bool)} (h : VisLe b vis vis1) :
    (unvisited b.size vis1).card ≤ (unvisited b.size vis).card := by
  apply Finset.card_le_card
  intro c hc
  rw [mem_unvisited] at hc ⊢
  refine ⟨hc.1, ?_⟩
  cases hv : visitedGet vis c.1 c.2
  · rfl
  · rw [h c hc.1 hv] at hc
    exact absurd hc.2 (by simp)

theorem unvisited_mark_lt {b : Board} {vis : List (List Bool)} (hsq : Square b.size vis)
    {x y : Int} (hc : b.InBounds (x, y)) (hv : visitedGet vis x y = false) :
    (unvisited b.size (visitedMark vis x y)).card < (unvisited b.size vis).card := by
  apply Finset.card_lt_card
  rw [Finset.ssubset_iff_of_subset]
  · refine ⟨(x, y), ?_, ?_⟩
    · rw [mem_unvisited]; exact ⟨hc, hv⟩
    · rw [mem_unvisited]
      rintro ⟨-, h⟩
      rw [visitedGet_mark_self hsq hc] at h
      exact absurd h (by simp)
  · intro c hc1
    rw [mem_unvisited] at hc1 ⊢
    refine ⟨hc1.1, ?_⟩
    cases hv1 : visitedGet vis c.1 c.2
    · rfl
    · rw [visitedGet_mark_mono vis x y c.1 c.2 hv1] at hc1
      exact absurd hc1.2 (by simp)

/-! ## Specification of the depth-first search -/

theorem exploreNeighbours_post (b : Board) (p : Int) (fuel : Nat)
    (hdfs : ∀ x y vis, Square b.size vis → b.InBounds (x, y) →
      (unvisited b.size (visitedMark vis x y)).card < fuel →
      DfsPost b p x y vis (b.dfsPathFinding p fuel x y vis)) :
    ∀ (l : List (Int × Int)) (vis : List (List Bool)), Square b.size vis →
      (∀ d ∈ l, b.InBounds d) → (unvisited b.size vis).card ≤ fuel →
      LoopPost b p l vis (exploreNeighbours (b.dfsPathFinding p fuel) l vis) := by
  intro l
  induction l with
  | nil =>
    intro vis hsq _ _
    refine ⟨false, vis, rfl, hsq, VisLe.refl b vis, by simp, fun _ => ⟨?_, by simp⟩⟩
    intro c _ h1 h2
    rw [h1] at h2
    exact absurd h2 (by simp)
  | cons d rest ih =>
    obtain ⟨nx, ny⟩ := d
    intro vis hsq hin hcard
    have hd : b.InBounds (nx, ny) := hin _ (List.mem_cons_self _ _)
    have hrest : ∀ e ∈ rest, b.InBounds e := fun e he => hin e (List.mem_cons_of_mem _ he)
    cases hv : visitedGet vis nx ny with
    | true =>
      obtain ⟨r, vis1, hres, hsq1, hle, htrue, hfalse⟩ := ih vis hsq hrest hcard
      refine ⟨r, vis1, ?_, hsq1, hle, ?_, ?_⟩
      · simp only [exploreNeighbours, hv, if_true]
        exact hres
      · intro hr
        obtain ⟨e, he, hw⟩ := htrue hr
        exact ⟨e, List.mem_cons_of_mem _ he, hw⟩
      · intro hr
        refine ⟨(hfalse hr).1, ?_⟩
        intro e he
        rcases List.mem_cons.mp he with rfl | he
        · exact hle _ hd hv
        · exact (hfalse hr).2 e he
    | false =>
      have hlt : (unvisited b.size (visitedMark vis nx ny)).card < fuel :=
        lt_of_lt_of_le (unvisited_mark_lt hsq hd hv) hcard
      obtain ⟨r, vis1, hres, hsq1, hle, htrue, hfalse⟩ := hdfs nx ny vis hsq hd hlt
      have hle0 : VisLe b vis vis1 := (VisLe.mark b vis nx ny).trans hle
      cases r with
      | true =>
        refine ⟨true, vis1, ?_, hsq1, hle0, ?_, by simp⟩
        · simp [exploreNeighbours, hv, hres]
        · intro _
          exact ⟨(nx, ny), List.mem_cons_self _ _, htrue rfl⟩
      | false =>
        obtain ⟨hnew, -, -⟩ := hfalse rfl
        have hcard1 : (unvisited b.size vis1).card ≤ fuel := le_trans hle0.card_le hcard
        obtain ⟨r2, vis2, hres2, hsq2, hle2, htrue2, hfalse2⟩ := ih vis1 hsq1 hrest hcard1
        refine ⟨r2, vis2, ?_, hsq2, hle0.trans hle2, ?_, ?_⟩
        · simp only [exploreNeighbours, hv, hres]
          exact hres2
        · intro hr
          obtain ⟨e, he, hw⟩ := htrue2 hr
          exact ⟨e, List.mem_cons_of_mem _ he, hw⟩
        · intro hr
          obtain ⟨hnew2, hall2⟩ := hfalse2 hr
          refine ⟨?_, ?_⟩
          · intro c hc hc2 hc0
            cases hc1 : visitedGet vis1 c.1 c.2 with
            | true =>
              obtain ⟨ht, hl⟩ := hnew c hc hc1 hc0
              exact ⟨ht, fun e he => hle2 e he.inBounds (hl e he)⟩
            | false => exact hnew2 c hc hc2 hc1
          · intro e he
            rcases List.mem_cons.mp he with rfl | he
            · exact hle2 _ hd (hle _ hd (visitedGet_mark_self hsq hd))
            · exact hall2 e he

theorem Board.dfsPathFinding_post (b : Board) (p : Int) :
    ∀ (fuel : Nat) (x y : Int) (vis : List (List Bool)), Square b.size vis →
      b.InBounds (x, y) → (unvisited b.size (visitedMark vis x y)).card < fuel →
      DfsPost b p x y vis (b.dfsPathFinding p fuel x y vis) := by
  intro fuel
  induction fuel with
  | zero => intro x y vis _ _ h; exact absurd h (Nat.not_lt_zero _)
  | succ fuel ih =>
    intro x y vis hsq hc hcard
    have hsq0 : Square b.size (visitedMark vis x y) := square_visitedMark hsq x y
    by_cases ht : b.Target p (x, y)
    · refine ⟨true, visitedMark vis x y, ?_, hsq0, VisLe.refl b _, ?_, by simp⟩
      · have ht1 := ht
        unfold Board.Target at ht1
        simp only at ht1
        simp only [Board.dfsPathFinding, if_pos ht1]
      · intro _
        exact ⟨(x, y), Relation.ReflTransGen.refl, ht⟩
    · have hin : ∀ d ∈ (b.getNeighbours p x y).reverse, b.InBounds d := by
        intro d hd
        exact ((b.mem_getNeighbours p x y d).mp (List.mem_reverse.mp hd)).2.1
      obtain ⟨r, vis1, hres, hsq1, hle, htrue, hfalse⟩ :=
        exploreNeighbours_post b p fuel ih (b.getNeighbours p x y).reverse
          (visitedMark vis x y) hsq0 hin (Nat.lt_succ_iff.mp hcard)
      refine ⟨r, vis1, ?_, hsq1, hle, ?_, ?_⟩
      · have ht1 := ht
        unfold Board.Target at ht1
        simp only at ht1
        simp only [Board.dfsPathFinding, if_neg ht1]
        exact hres
      · intro hr
        obtain ⟨d, hd, t, hreach, htarget⟩ := htrue hr
        exact ⟨t, Relation.ReflTransGen.head (List.mem_reverse.mp hd) hreach, htarget⟩
      · intro hr
        obtain ⟨hnew, hall⟩ := hfalse hr
        have hlinks : ∀ d, b.Link p (x, y) d → visitedGet vis1 d.1 d.2 = true :=
          fun d hd => hall d (List.mem_reverse.mpr hd)
        refine ⟨?_, ht, hlinks⟩
        intro c hcb hc1 hc0
        by_cases hxy : c = (x, y)
        · subst hxy
          exact ⟨ht, hlinks⟩
        · apply hnew c hcb hc1
          have := @visitedGet_mark_ne b vis x y c.1 c.2 hc hcb hxy
          rw [this]
          exact hc0

theorem Closed.reach {b : Board} {p : Int} {vis : List (List Bool)} (hcl : Closed b p vis)
    {c t : Int × Int} (hc : b.InBounds c) (hv : visitedGet vis c.1 c.2 = true)
    (h : Relation.ReflTransGen (b.Link p) c t) :
    b.InBounds t ∧ visitedGet vis t.1 t.2 = true := by
  induction h with
  | refl => exact ⟨hc, hv⟩
  | tail _ hlink ih => exact ⟨hlink.inBounds, (hcl _ ih.1 ih.2).2 _ hlink⟩

theorem Closed.not_wins {b : Board} {p : Int} {vis : List (List Bool)} (hcl : Closed b p vis)
    {c : Int × Int} (hc : b.InBounds c) (hv : visitedGet vis c.1 c.2 = true) :
    ¬ b.Wins p c := by
  rintro ⟨t, hreach, ht⟩
  obtain ⟨h1, h2⟩ := hcl.reach hc hv hreach
  exact (hcl t h1 h2).1 ht

theorem Board.hasWonLoop_post (b : Board) (p : Int) (fuel : Nat) (hfuel : b.size * b.size < fuel)
    (start : Nat → Int × Int) :
    ∀ (l : List Nat) (vis : List (List Bool)), Square b.size vis →
      (∀ i ∈ l, b.InBounds (start i)) → Closed b p vis →
      ∃ r, b.hasWonLoop p fuel start l vis = some r ∧
        (r = true ↔ ∃ i ∈ l, b.cell (start i).1 (start i).2 = p ∧ b.Wins p (start i)) := by
  -- the loop invariant also records where the search has been
  suffices key : ∀ (l : List Nat) (vis : List (List Bool)), Square b.size vis →
      (∀ i ∈ l, b.InBounds (start i)) → Closed b p vis →
      ∃ r, b.hasWonLoop p fuel start l vis = some r ∧
        (r = true → ∃ i ∈ l, b.cell (start i).1 (start i).2 = p ∧ b.Wins p (start i)) ∧
        (r = false → ∃ vis1, Closed b p vis1 ∧ VisLe b vis vis1 ∧
          ∀ i ∈ l, b.cell (start i).1 (start i).2 = p →
            visitedGet vis1 (start i).1 (start i).2 = true) by
    intro l vis hsq hin hcl
    obtain ⟨r, hres, htrue, hfalse⟩ := key l vis hsq hin hcl
    refine ⟨r, hres, htrue, ?_⟩
    rintro ⟨i, hi, hcell, hw⟩
    cases r with
    | true => rfl
    | false =>
      obtain ⟨vis1, hcl1, -, hall⟩ := hfalse rfl
      exact absurd hw (hcl1.not_wins (hin i hi) (hall i hi hcell))
  intro l
  induction l with
  | nil =>
    intro vis _ _ hcl
    exact ⟨false, rfl, by simp, fun _ => ⟨vis, hcl, VisLe.refl b vis, by simp⟩⟩
  | cons i rest ih =>
    intro vis hsq hin hcl
    have hi : b.InBounds (start i) := hin _ (List.mem_cons_self _ _)
    have hrest : ∀ j ∈ rest, b.InBounds (start j) := fun j hj => hin j (List.mem_cons_of_mem _ hj)
    by_cases hcell : b.cell (start i).1 (start i).2 = p
    · have hlt : (unvisited b.size (visitedMark vis (start i).1 (start i).2)).card < fuel :=
        lt_of_le_of_lt (unvisited_card_le _ _) hfuel
      obtain ⟨r, vis1, hres, hsq1, hle, htrue, hfalse⟩ :=
        b.dfsPathFinding_post p fuel (start i).1 (start i).2 vis hsq hi hlt
      have hle0 : VisLe b vis vis1 := (VisLe.mark b vis _ _).trans hle
      cases r with
      | true =>
        refine ⟨true, ?_, fun _ => ⟨i, List.mem_cons_self _ _, hcell, htrue rfl⟩, by simp⟩
        simp [Board.hasWonLoop, hcell, hres]
      | false =>
        obtain ⟨hnew, -, -⟩ := hfalse rfl
        have hcl1 : Closed b p vis1 := by
          intro c hc hc1
          cases hc0 : visitedGet vis c.1 c.2 with
          | true =>
            obtain ⟨ht, hl⟩ := hcl c hc hc0
            exact ⟨ht, fun d hd => hle0 d hd.inBounds (hl d hd)⟩
          | false => exact hnew c hc hc1 hc0
        obtain ⟨r2, hres2, htrue2, hfalse2⟩ := ih vis1 hsq1 hrest hcl1
        refine ⟨r2, ?_, ?_, ?_⟩
        · simp only [Board.hasWonLoop, hcell, hres, if_true]
          exact hres2
        · intro hr
          obtain ⟨j, hj, h⟩ := htrue2 hr
          exact ⟨j, List.mem_cons_of_mem _ hj, h⟩
        · intro hr
          obtain ⟨vis2, hcl2, hle2, hall2⟩ := hfalse2 hr
          refine ⟨vis2, hcl2, hle0.trans hle2, ?_⟩
          intro j hj hjc
          rcases List.mem_cons.mp hj with rfl | hj
          · exact hle2 _ hi (hle _ hi (visitedGet_mark_self hsq hi))
          · exact hall2 j hj hjc
    · obtain ⟨r, hres, htrue, hfalse⟩ := ih vis hsq hrest hcl
      refine ⟨r, ?_, ?_, ?_⟩
      · simp only [Board.hasWonLoop, hcell, if_false]
        exact hres
      · intro hr
        obtain ⟨j, hj, h⟩ := htrue hr
        exact ⟨j, List.mem_cons_of_mem _ hj, h⟩
      · intro hr
        obtain ⟨vis1, hcl1, hle1, hall1⟩ := hfalse hr
        refine ⟨vis1, hcl1, hle1, ?_⟩
        intro j hj hjc
        rcases List.mem_cons.mp hj with rfl | hj
        · exact absurd hjc hcell
        · exact hall1 j hj hjc

theorem closed_visitedInit (b : Board) (p : Int) : Closed b p (visitedInit b.size) := by
  intro c _ h
  rw [visitedGet_init] at h
  exact absurd h (by simp)

/-- With any depth bound above `size * size` the search of `hasWon` finishes,
and it answers true exactly when a far-edge cell is reachable from a cell of
side `p` on its starting edge. -/
theorem Board.hasWonFuel_post (b : Board) (p : Int) (hp : p = 1 ∨ p = -1) (fuel : Nat)
    (hfuel : b.size * b.size < fuel) :
    ∃ r, b.hasWonFuel fuel p = some r ∧
      (r = true ↔
        ∃ i, i < b.size ∧ b.cell (startCell p i).1 (startCell p i).2 = p ∧
          b.Wins p (startCell p i)) := by
  have hin : ∀ i ∈ List.range b.size, b.InBounds (startCell p i) := by
    intro i hi
    have hi1 := List.mem_range.mp hi
    unfold startCell Board.InBounds
    split <;> simp <;> omega
  obtain ⟨r, hres, hiff⟩ := b.hasWonLoop_post p fuel hfuel
    (startCell p) (List.range b.size) (visitedInit b.size) (square_visitedInit _) hin
    (closed_visitedInit b p)
  refine ⟨r, ?_, ?_⟩
  · rw [← hres]
    unfold Board.hasWonFuel
    rcases hp with rfl | rfl
    · have hs : startCell 1 = fun (i : Nat) => ((i : Int), (0 : Int)) := by
        funext i; simp [startCell]
      rw [hs]; simp
    · have hs : startCell (-1) = fun (j : Nat) => ((0 : Int), (j : Int)) := by
        funext j; simp [startCell]
      rw [hs]; simp
  · rw [hiff]
    simp only [List.mem_range]

/-- The search never exhausts a depth bound above `size * size` (the result does
not depend on the bound), and `hasWon` holds exactly when a far-edge cell is
reachable from a cell of side `p` on its starting edge. -/
theorem Board.hasWon_spec (b : Board) (p : Int) (hp : p = 1 ∨ p = -1) :
    (∀ fuel, b.size * b.size < fuel → b.hasWonFuel fuel p = some (b.hasWon p)) ∧
    (b.hasWon p = true ↔
      ∃ i, i < b.size ∧ b.cell (startCell p i).1 (startCell p i).2 = p ∧
        b.Wins p (startCell p i)) := by
  obtain ⟨r, hres, hiff⟩ := b.hasWonFuel_post p hp (b.size * b.size + 1) (Nat.lt_succ_self _)
  have hwon : b.hasWon p = r := by
    unfold Board.hasWon
    rw [hres]
    rfl
  rw [hwon]
  refine ⟨?_, hiff⟩
  intro fuel hfuel
  obtain ⟨r1, hres1, hiff1⟩ := b.hasWonFuel_post p hp fuel hfuel
  rw [hres1]
  have h : r1 = true ↔ r = true := hiff1.trans hiff.symm
  cases r1 <;> cases r <;> simp_all

/-! ## Chains of cells -/

theorem Board.chain_of_reach (b : Board) (p : Int) {c t : Int × Int}
    (h : Relation.ReflTransGen (b.Link p) c t) (hc : b.InBounds c) (hcell : b.cell c.1 c.2 = p) :
    ∃ l, (∀ e ∈ c :: l, b.InBounds e ∧ b.cell e.1 e.2 = p) ∧ List.Chain Adjacent c l ∧
      (c :: l).getLast? = some t := by
  induction h using Relation.ReflTransGen.head_induction_on with
  | refl => exact ⟨[], by simpa using ⟨hc, hcell⟩, List.Chain.nil, rfl⟩
  | head hlink _ ih =>
    obtain ⟨l, hall, hchain, hlast⟩ := ih hlink.inBounds hlink.cell
    refine ⟨_ :: l, ?_, List.Chain.cons hlink.adjacent hchain, ?_⟩
    · intro e he
      rcases List.mem_cons.mp he with rfl | he
      · exact ⟨hc, hcell⟩
      · exact hall e he
    · rw [List.getLast?_cons_cons]
      exact hlast

theorem Board.reach_of_chain (b : Board) (p : Int) :
    ∀ (l : List (Int × Int)) (c t : Int × Int), List.Chain Adjacent c l →
      (∀ e ∈ c :: l, b.InBounds e ∧ b.cell e.1 e.2 = p) → (c :: l).getLast? = some t →
      Relation.ReflTransGen (b.Link p) c t := by
  intro l
  induction l with
  | nil =>
    intro c t _ _ hlast
    simp at hlast
    subst hlast
    exact Relation.ReflTransGen.refl
  | cons d rest ih =>
    intro c t hchain hall hlast
    rw [List.chain_cons] at hchain
    rw [List.getLast?_cons_cons] at hlast
    have hd := hall d (by simp)
    have hlink : b.Link p c d := (b.mem_getNeighbours p c.1 c.2 d).mpr ⟨hchain.1, hd.1, hd.2⟩
    exact Relation.ReflTransGen.head hlink
      (ih d t hchain.2 (fun e he => hall e (List.mem_cons_of_mem _ he)) hlast)

theorem Board.exists_chain_iff (b : Board) (s : Int) (hs : s = 1 ∨ s = -1) :
    (∃ chain, b.WinningChain s chain) ↔
      ∃ i, i < b.size ∧ b.cell (startCell s i).1 (startCell s i).2 = s ∧
        b.Wins s (startCell s i) := by
  constructor
  · rintro ⟨chain, hall, hchain, ⟨c0, hc0, hstart⟩, ⟨ck, hck, hend⟩⟩
    cases chain with
    | nil => simp at hc0
    | cons c l =>
      simp only [List.head?_cons, Option.mem_def, Option.some.injEq] at hc0
      subst hc0
      obtain ⟨hcb, hcell⟩ := hall c (List.mem_cons_self _ _)
      have hreach := b.reach_of_chain s l c ck hchain hall hck
      obtain ⟨h1, h2, h3, h4⟩ := hcb
      have hne : (1 : Int) ≠ -1 := by decide
      rcases hs with rfl | rfl
      · have h0 : c.2 = 0 := by
          rcases hstart with h | h
          · exact h.2
          · exact absurd h.1 hne
        have hcs : startCell 1 c.1.toNat = c := by
          unfold startCell
          rw [if_pos rfl, Int.toNat_of_nonneg h1, ← h0]
        refine ⟨c.1.toNat, by omega, ?_, ck, ?_, hend⟩ <;> rw [hcs]
        · exact hcell
        · exact hreach
      · have h0 : c.1 = 0 := by
          rcases hstart with h | h
          · exact absurd h.1 hne.symm
          · exact h.2
        have hcs : startCell (-1) c.2.toNat = c := by
          unfold startCell
          rw [if_neg (by decide), Int.toNat_of_nonneg h3, ← h0]
        refine ⟨c.2.toNat, by omega, ?_, ck, ?_, hend⟩ <;> rw [hcs]
        · exact hcell
        · exact hreach
  · rintro ⟨i, hi, hcell, t, hreach, htarget⟩
    have hcb : b.InBounds (startCell s i) := by
      unfold startCell Board.InBounds
      split <;> simp <;> omega
    obtain ⟨l, hall, hchain, hlast⟩ := b.chain_of_reach s hreach hcb hcell
    refine ⟨startCell s i :: l, hall, hchain, ⟨startCell s i, rfl, ?_⟩, ⟨t, hlast, htarget⟩⟩
    unfold startCell
    rcases hs with rfl | rfl
    · left; simp
    · right; simp

/-! ## Placing a stone -/

theorem Board.isValidMove_iff (b : Board) (x y : Int) :
    b.isValidMove x y = true ↔ b.InBounds (x, y) ∧ b.cell x y = 0 := by
  unfold Board.isValidMove Board.InBounds
  simp only [Bool.and_eq_true, decide_eq_true_eq, ge_iff_le]
  tauto

/-! ## Connection along a row -/

theorem Board.reach_along_row (b : Board) (r : Nat) (hr : r < b.size)
    (hrow : ∀ c : Nat, c < b.size → b.cell r c = 1) :
    ∀ k : Nat, k < b.size →
      Relation.ReflTransGen (b.Link 1) ((r : Int), 0) ((r : Int), (k : Int)) := by
  intro k
  induction k with
  | zero => intro _; exact Relation.ReflTransGen.refl
  | succ k ih =>
    intro hk
    refine Relation.ReflTransGen.tail (ih (by omega)) ?_
    refine (b.mem_getNeighbours 1 _ _ _).mpr ⟨⟨3, by decide, ?_⟩, ?_, ?_⟩
    · simp [DX, DY]
    · unfold Board.InBounds
      simp only
      omega
    · exact hrow (k + 1) hk

/-! ## The cut condition -/

theorem Adjacent.step_le {c d : Int × Int} (h : Adjacent c d) :
    d.1 ≤ c.1 + 1 ∧ d.2 ≤ c.2 + 1 := by
  obtain ⟨i, hi, rfl⟩ := h
  interval_cases i <;> simp [DX, DY]

theorem Board.reach_crosses_col (b : Board) (p : Int) {c t : Int × Int}
    (h : Relation.ReflTransGen (b.Link p) c t) (hc : b.InBounds c)
    (hcell : b.cell c.1 c.2 = p) (col : Int) (h1 : c.2 ≤ col) (h2 : col ≤ t.2) :
    ∃ e, b.InBounds e ∧ b.cell e.1 e.2 = p ∧ e.2 = col := by
  induction h using Relation.ReflTransGen.head_induction_on with
  | refl => exact ⟨_, hc, hcell, le_antisymm h1 h2⟩
  | @head c0 d hlink _ ih =>
    by_cases heq : c0.2 = col
    · exact ⟨c0, hc, hcell, heq⟩
    · have := hlink.adjacent.step_le.2
      exact ih hlink.inBounds hlink.cell (by omega)

theorem Board.reach_crosses_row (b : Board) (p : Int) {c t : Int × Int}
    (h : Relation.ReflTransGen (b.Link p) c t) (hc : b.InBounds c)
    (hcell : b.cell c.1 c.2 = p) (row : Int) (h1 : c.1 ≤ row) (h2 : row ≤ t.1) :
    ∃ e, b.InBounds e ∧ b.cell e.1 e.2 = p ∧ e.1 = row := by
  induction h using Relation.ReflTransGen.head_induction_on with
  | refl => exact ⟨_, hc, hcell, le_antisymm h1 h2⟩
  | @head c0 d hlink _ ih =>
    by_cases heq : c0.1 = row
    · exact ⟨c0, hc, hcell, heq⟩
    · have := hlink.adjacent.step_le.1
      exact ih hlink.inBounds hlink.cell (by omega)

theorem Board.hasWon_white_col (b : Board) (col : Nat) (hcol : col < b.size)
    (h : b.hasWon 1 = true) : ∃ row : Nat, row < b.size ∧ b.cell row col = 1 := by
  obtain ⟨i, hi, hcell, t, hreach, ht⟩ := (b.hasWon_spec 1 (Or.inl rfl)).2.mp h
  have hin : b.InBounds (startCell 1 i) := by
    unfold startCell Board.InBounds
    simp
    omega
  have ht2 : t.2 = (b.size : Int) - 1 := by
    rcases ht with ht | ht
    · exact ht.2
    · exact absurd ht.1 (by decide)
  obtain ⟨e, he, hecell, hecol⟩ := b.reach_crosses_col 1 hreach hin hcell (col : Int)
    (by simp [startCell]) (by omega)
  obtain ⟨e1, e2, -, -⟩ := he
  refine ⟨e.1.toNat, by omega, ?_⟩
  rw [Int.toNat_of_nonneg e1, ← hecol]
  exact hecell

theorem Board.hasWon_black_row (b : Board) (row : Nat) (hrow : row < b.size)
    (h : b.hasWon (-1) = true) : ∃ col : Nat, col < b.size ∧ b.cell row col = -1 := by
  obtain ⟨i, hi, hcell, t, hreach, ht⟩ := (b.hasWon_spec (-1) (Or.inr rfl)).2.mp h
  have hin : b.InBounds (startCell (-1) i) := by
    unfold startCell Board.InBounds
    simp
    omega
  have ht1 : t.1 = (b.size : Int) - 1 := by
    rcases ht with ht | ht
    · exact absurd ht.1 (by decide)
    · exact ht.2
  obtain ⟨e, he, hecell, herow⟩ := b.reach_crosses_row (-1) hreach hin hcell (row : Int)
    (by simp [startCell]) (by omega)
  obtain ⟨-, -, e3, e4⟩ := he
  refine ⟨e.2.toNat, by omega, ?_⟩
  rw [Int.toNat_of_nonneg e3, ← herow]
  exact hecell

theorem Board.cell_empty (n : Nat) (x y : Int) : (Board.empty n).cell x y = 0 := by
  unfold Board.cell Board.empty
  simp only [List.getD_eq_getElem?_getD]
  by_cases hx : x.toNat < n
  · by_cases hy : y.toNat < n
    · simp [List.getElem?_replicate, hx, hy]
    · simp [List.getElem?_replicate, hx, hy]
  · simp [List.getElem?_replicate, hx]

/-! ## Links inside one column -/

theorem Adjacent.same_col_up {c d : Int × Int} (h : Adjacent c d) (hcol : d.2 = c.2) :
    d.1 = c.1 - 1 := by
  obtain ⟨i, hi, rfl⟩ := h
  interval_cases i <;> simp [DX, DY] at hcol ⊢
  omega

theorem Board.reach_in_column (b : Board) (col : Int)
    (hcol : ∀ e, b.InBounds e → b.cell e.1 e.2 = -1 → e.2 = col) {s t : Int × Int}
    (h : Relation.ReflTransGen (b.Link (-1)) s t) (hs : s.2 = col) :
    t.1 ≤ s.1 ∧ t.2 = col := by
  induction h with
  | refl => exact ⟨le_refl _, hs⟩
  | tail _ hlink ih =>
    have hd := hcol _ hlink.inBounds hlink.cell
    have := hlink.adjacent.same_col_up (by rw [hd, ih.2])
    exact ⟨by omega, hd⟩

/-! ## Straight lines -/

theorem Board.hasCompleteLineWin_white (b : Board) :
    b.hasCompleteLineWin 1 = true ↔
      ∃ r : Nat, r < b.size ∧ ∀ c : Nat, c < b.size → b.cell r c = 1 := by
  unfold Board.hasCompleteLineWin
  simp [List.any_eq_true, List.all_eq_true]

theorem Board.hasCompleteLineWin_black (b : Board) :
    b.hasCompleteLineWin (-1) = true ↔
      ∃ c : Nat, c < b.size ∧ ∀ r : Nat, r < b.size → b.cell r c = -1 := by
  unfold Board.hasCompleteLineWin
  simp [List.any_eq_true, List.all_eq_true]

/-! ## The shared board during `SmartPlayer::getMove` -/

theorem Board.Keeps.same {b : Board} (h : b.WF) : b.Keeps b := ⟨rfl, h, fun _ _ _ h => h⟩

theorem Board.Keeps.chain {b1 b2 b3 : Board} (h12 : b1.Keeps b2) (h23 : b2.Keeps b3) :
    b1.Keeps b3 := by
  refine ⟨h23.1.trans h12.1, h23.2.1, ?_⟩
  intro x y hin h
  have hin2 : b2.InBounds (x, y) := by
    unfold Board.InBounds at hin ⊢
    rw [h12.1]
    exact hin
  exact h23.2.2 x y hin2 (h12.2.2 x y hin h)

theorem SmartPlayer.tryCell_keeps (s : Int) (hs : s ≠ 0) (st : SmartState) (hwf : st.board.WF)
    (i j : Nat) (hi : i < st.board.size) (hj : j < st.board.size) :
    st.board.Keeps (SmartPlayer.tryCell s st i j).board ∧
      (SmartPlayer.tryCell s st i j).board.cell i j ≠ 0 := by
  have hin : st.board.InBounds ((i : Int), (j : Int)) := by
    unfold Board.InBounds
    simp only
    omega
  by_cases hv : st.board.isValidMove i j = true
  · have hmk : st.board.makeMove i j s = (true, st.board.setCell i j s) := by
      unfold Board.makeMove; rw [if_pos hv]
    have hcell : (st.board.setCell i j s).cell i j = s := Board.cell_setCell_self hwf hin s
    have hnv : ¬ (st.board.setCell i j s).isValidMove i j = true := by
      intro h
      have := ((Board.isValidMove_iff _ _ _).mp h).2
      rw [hcell] at this
      exact hs this
    have hmk2 : (st.board.setCell i j s).makeMove i j 0 = (false, st.board.setCell i j s) := by
      unfold Board.makeMove; rw [if_neg hnv]
    have hboard : (SmartPlayer.tryCell s st i j).board = st.board.setCell i j s := by
      unfold SmartPlayer.tryCell
      simp only [hv, if_true, hmk, hmk2]
      split <;> rfl
    rw [hboard]
    refine ⟨⟨rfl, Board.WF_setCell hwf _ _ _, ?_⟩, by rw [hcell]; exact hs⟩
    intro x y hxy hne
    by_cases heq : (x, y) = ((i : Int), (j : Int))
    · have h1 : x = (i : Int) := congrArg Prod.fst heq
      have h2 : y = (j : Int) := congrArg Prod.snd heq
      rw [h1, h2, hcell]
      exact hs
    · rw [st.board.cell_setCell_ne s hin hxy heq]
      exact hne
  · have hboard : SmartPlayer.tryCell s st i j = st := by
      unfold SmartPlayer.tryCell
      rw [if_neg hv]
    rw [hboard]
    refine ⟨Board.Keeps.same hwf, ?_⟩
    intro h0
    exact hv ((st.board.isValidMove_iff i j).mpr ⟨hin, h0⟩)

theorem SmartPlayer.row_keeps (s : Int) (hs : s ≠ 0) (i : Nat) :
    ∀ (js : List Nat) (st : SmartState), st.board.WF → i < st.board.size →
      (∀ j ∈ js, j < st.board.size) →
      st.board.Keeps (js.foldl (fun st j => SmartPlayer.tryCell s st i j) st).board ∧
        ∀ j ∈ js, (js.foldl (fun st j => SmartPlayer.tryCell s st i j) st).board.cell i j ≠ 0 := by
  intro js
  induction js with
  | nil => intro st hwf _ _; exact ⟨Board.Keeps.same hwf, by simp⟩
  | cons j rest ih =>
    intro st hwf hi hjs
    have hj : j < st.board.size := hjs j (List.mem_cons_self _ _)
    obtain ⟨hk, hc⟩ := SmartPlayer.tryCell_keeps s hs st hwf i j hi hj
    have hrest : ∀ k ∈ rest, k < (SmartPlayer.tryCell s st i j).board.size := by
      intro k hk1
      rw [hk.1]
      exact hjs k (List.mem_cons_of_mem _ hk1)
    obtain ⟨hk2, hc2⟩ := ih (SmartPlayer.tryCell s st i j) hk.2.1 (by rw [hk.1]; exact hi) hrest
    rw [List.foldl_cons]
    refine ⟨hk.chain hk2, ?_⟩
    intro k hk1
    rcases List.mem_cons.mp hk1 with rfl | hk1
    · refine hk2.2.2 _ _ ?_ hc
      unfold Board.InBounds
      simp only
      rw [hk.1]
      omega
    · exact hc2 k hk1

theorem SmartPlayer.rows_keep (s : Int) (hs : s ≠ 0) (n : Nat) :
    ∀ (rows : List Nat) (st : SmartState), st.board.WF → st.board.size = n →
      (∀ i ∈ rows, i < n) →
      st.board.Keeps (rows.foldl (fun st i =>
          (List.range n).foldl (fun st j => SmartPlayer.tryCell s st i j) st) st).board ∧
        ∀ i ∈ rows, ∀ j, j < n → (rows.foldl (fun st i =>
          (List.range n).foldl (fun st j => SmartPlayer.tryCell s st i j) st) st).board.cell i j
            ≠ 0 := by
  intro rows
  induction rows with
  | nil => intro st hwf _ _; exact ⟨Board.Keeps.same hwf, by simp⟩
  | cons i rest ih =>
    intro st hwf hsize hrows
    have hi : i < n := hrows i (List.mem_cons_self _ _)
    obtain ⟨hk, hc⟩ := SmartPlayer.row_keeps s hs i (List.range n) st hwf (by omega)
      (fun j hj => by rw [hsize]; exact List.mem_range.mp hj)
    obtain ⟨hk2, hc2⟩ := ih _ hk.2.1 (hk.1.trans hsize)
      (fun k hk1 => hrows k (List.mem_cons_of_mem _ hk1))
    rw [List.foldl_cons]
    refine ⟨hk.chain hk2, ?_⟩
    intro k hk1 j hj
    rcases List.mem_cons.mp hk1 with rfl | hk1
    · refine hk2.2.2 _ _ ?_ (hc j (List.mem_range.mpr hj))
      unfold Board.InBounds
      simp only
      rw [hk.1, hsize]
      omega
    · exact hc2 k hk1 j hj

/-! ## Claims -/

/-- C1: for a side `s ∈ {1, -1}` the search of `hasWon` always finishes (with
any depth bound above `size * size` it returns the value of `hasWon`), and
`hasWon(s)` is true if and only if there is a chain of in-bounds cells marked
`s`, each one offset `(DX[d], DY[d])` from the previous, from the starting edge
of `s` (column 0 for `s = 1`, row 0 for `s = -1`) to the opposite edge.  This
holds for every board, in particular for the boards of size at least one with
marks in `{0, 1, -1}`. -/
theorem hasWon_iff_winning_chain (b : Board) (s : Int) (hs : s = 1 ∨ s = -1) :
    (∀ fuel, b.size * b.size < fuel → b.hasWonFuel fuel s = some (b.hasWon s)) ∧
    (b.hasWon s = true ↔ ∃ chain, b.WinningChain s chain) := by
  refine ⟨(b.hasWon_spec s hs).1, ?_⟩
  rw [(b.hasWon_spec s hs).2, b.exists_chain_iff s hs]

/-- The chain characterisation instantiated on Scenario B for SideA. -/
theorem hasWon_iff_winning_chain_witness :
    ((1 : Int) = 1 ∨ (1 : Int) = -1) ∧
    ((∀ fuel, scenarioB.size * scenarioB.size < fuel →
        scenarioB.hasWonFuel fuel 1 = some (scenarioB.hasWon 1)) ∧
      (scenarioB.hasWon 1 = true ↔ ∃ chain, scenarioB.WinningChain 1 chain)) :=
  ⟨Or.inl rfl, hasWon_iff_winning_chain scenarioB 1 (Or.inl rfl)⟩

/-- C2: `makeMove(r, c, s)` returns true exactly when `(r, c)` is in bounds and
empty; then the new board holds `s` at `(r, c)`, keeps its size and dimensions,
and every other in-bounds cell is unchanged; when it returns false the board is
unchanged. -/
theorem makeMove_spec (b : Board) (hwf : b.WF) (r c s : Int) :
    ((b.makeMove r c s).1 = true ↔
      0 ≤ r ∧ r < b.size ∧ 0 ≤ c ∧ c < b.size ∧ b.cell r c = 0) ∧
    ((b.makeMove r c s).1 = true →
      (b.makeMove r c s).2.cell r c = s ∧ (b.makeMove r c s).2.size = b.size ∧
      (b.makeMove r c s).2.WF ∧
      ∀ x y, b.InBounds (x, y) → (x, y) ≠ (r, c) →
        (b.makeMove r c s).2.cell x y = b.cell x y) ∧
    ((b.makeMove r c s).1 = false → (b.makeMove r c s).2 = b) := by
  by_cases hv : b.isValidMove r c = true
  · have hin := ((b.isValidMove_iff r c).mp hv)
    have hmk : b.makeMove r c s = (true, b.setCell r c s) := by
      unfold Board.makeMove; rw [if_pos hv]
    rw [hmk]
    refine ⟨?_, ?_, by simp⟩
    · simp only [true_iff]
      exact ⟨hin.1.1, hin.1.2.1, hin.1.2.2.1, hin.1.2.2.2, hin.2⟩
    · intro _
      exact ⟨Board.cell_setCell_self hwf hin.1 s, rfl, Board.WF_setCell hwf r c s,
        fun x y hxy hne => b.cell_setCell_ne s hin.1 hxy hne⟩
  · have hmk : b.makeMove r c s = (false, b) := by
      unfold Board.makeMove; rw [if_neg hv]
    rw [hmk]
    refine ⟨?_, by simp, fun _ => rfl⟩
    simp only [Bool.false_eq_true, false_iff]
    intro h
    exact hv ((b.isValidMove_iff r c).mpr ⟨⟨h.1, h.2.1, h.2.2.1, h.2.2.2.1⟩, h.2.2.2.2⟩)

/-- The placement contract instantiated on the empty board of size 2: a legal
placement on (0,1) and a refused one on (0,-1). -/
theorem makeMove_spec_witness :
    (Board.empty 2).WF ∧
    ((Board.empty 2).makeMove 0 1 1).1 = true ∧
    ((Board.empty 2).makeMove 0 1 1).2.cell 0 1 = 1 ∧
    ((Board.empty 2).makeMove 0 (-1) 1).2 = Board.empty 2 :=
  have hwf : (Board.empty 2).WF := by unfold Board.WF; decide
  ⟨hwf, by decide,
    ((makeMove_spec (Board.empty 2) hwf 0 1 1).2.1 (by decide)).1,
    (makeMove_spec (Board.empty 2) hwf 0 (-1) 1).2.2 (by decide)⟩

/-- C3 (violated by the code): on every well-formed board and for both sides,
the board left by `SmartPlayer::getMove` has no empty cell, because the undo
`makeMove(i, j, 0)` is refused on the occupied trial cell; so whenever the board
had an empty cell before the call, it is different after it. -/
theorem smart_getMove_mutates_board (b : Board) (hwf : b.WF) (s : Int) (hs : s = 1 ∨ s = -1)
    (r c : Int) (hempty : b.isValidMove r c = true) :
    (SmartPlayer.getMoveState b s).board.isFull = true ∧
    (SmartPlayer.getMoveState b s).board.cell r c ≠ b.cell r c ∧
    (SmartPlayer.getMoveState b s).board ≠ b := by
  have hs0 : s ≠ 0 := by rcases hs with rfl | rfl <;> decide
  obtain ⟨hk, hc⟩ := SmartPlayer.rows_keep s hs0 b.size (List.range b.size)
    { board := b, bestMove := (-1, -1), bestScore := -999999 } hwf rfl
    (fun i hi => List.mem_range.mp hi)
  have hfull : ∀ i j : Nat, i < b.size → j < b.size →
      (SmartPlayer.getMoveState b s).board.cell i j ≠ 0 :=
    fun i j hi hj => hc i (List.mem_range.mpr hi) j hj
  have hsize : (SmartPlayer.getMoveState b s).board.size = b.size := hk.1
  obtain ⟨⟨h1, h2, h3, h4⟩, h0⟩ := (b.isValidMove_iff r c).mp hempty
  simp only at h1 h2 h3 h4
  have hne : (SmartPlayer.getMoveState b s).board.cell r c ≠ b.cell r c := by
    rw [h0]
    have := hfull r.toNat c.toNat (by omega) (by omega)
    rwa [Int.toNat_of_nonneg h1, Int.toNat_of_nonneg h3] at this
  refine ⟨?_, hne, fun h => hne (by rw [h])⟩
  unfold Board.isFull
  simp only [List.all_eq_true, List.mem_range, Bool.not_eq_true', decide_eq_false_iff_not]
  intro i hi j hj
  rw [hsize] at hi hj
  exact hfull i j hi hj

/-- The empty board of size 2 is full of SideA stones after SideA's
`SmartPlayer::getMove`. -/
theorem smart_getMove_mutates_board_witness :
    (Board.empty 2).WF ∧ ((1 : Int) = 1 ∨ (1 : Int) = -1) ∧
    (Board.empty 2).isValidMove 0 0 = true ∧
    (SmartPlayer.getMoveState (Board.empty 2) 1).board = { size := 2, board := [[1, 1], [1, 1]] } ∧
    ((SmartPlayer.getMoveState (Board.empty 2) 1).board.isFull = true ∧
      (SmartPlayer.getMoveState (Board.empty 2) 1).board.cell 0 0 ≠ (Board.empty 2).cell 0 0 ∧
      (SmartPlayer.getMoveState (Board.empty 2) 1).board ≠ Board.empty 2) :=
  ⟨by unfold Board.WF; decide, Or.inl rfl, by decide, by decide,
    smart_getMove_mutates_board (Board.empty 2) (by unfold Board.WF; decide) 1 (Or.inl rfl) 0 0
      (by decide)⟩

/-- C4 (violated by the code): the undo call `makeMove(r, c, 0)` on an occupied
cell returns false and leaves the board, hence the mark on `(r, c)`, as it was. -/
theorem makeMove_zero_keeps_mark (b : Board) (r c : Int) (hocc : b.cell r c ≠ 0) :
    b.makeMove r c 0 = (false, b) ∧ (b.makeMove r c 0).2.cell r c ≠ 0 := by
  have hv : ¬ b.isValidMove r c = true := fun h => hocc ((b.isValidMove_iff r c).mp h).2
  have hmk : b.makeMove r c 0 = (false, b) := by
    unfold Board.makeMove
    rw [if_neg hv]
  rw [hmk]
  exact ⟨rfl, hocc⟩

/-- A SideA stone on the only cell of a board of size 1 survives the undo call. -/
theorem makeMove_zero_keeps_mark_witness :
    occupiedBoard.cell 0 0 ≠ 0 ∧
    occupiedBoard.makeMove 0 0 0 = (false, occupiedBoard) ∧
    (occupiedBoard.makeMove 0 0 0).2.cell 0 0 ≠ 0 :=
  ⟨by decide, makeMove_zero_keeps_mark occupiedBoard 0 0 (by decide)⟩

/-- C5 (violated by the code): in `scenarioD` the only empty cell whose
placement alone wins for SideA is (2,2), yet `SmartPlayer::getMove` returns
(0,2), where the trial stones left on (0,0), (0,1), (0,2) form a winning row. -/
theorem smart_getMove_misses_winning_cell :
    (emptyCells scenarioD).filter
      (fun w => (scenarioD.makeMove w.1 w.2 1).2.hasWon 1) = [(2, 2)] ∧
    SmartPlayer.getMove scenarioD 1 = (0, 2) := by
  decide

/-- C6 (violated by the code): on `cornerBoard` the isolated scores of the empty
cells (0,1), (1,0), (1,1) for SideA are 6, 0, 6, so the first maximiser is
(0,1); `SmartPlayer::getMove` returns (1,0), whose trial saw the stone left on
(0,1) by the previous trial. -/
theorem smart_getMove_trials_not_isolated :
    (emptyCells cornerBoard).map (fun c => (c, SmartPlayer.isolatedScore cornerBoard 1 c))
      = [((0, 1), 6), ((1, 0), 0), ((1, 1), 6)] ∧
    SmartPlayer.getMove cornerBoard 1 = (1, 0) := by
  decide

/-- C7: on a board of size at least one in which some row is wholly occupied
by SideA, `hasWon(1)` is true and equals `hasCompleteLineWin(1)`. -/
theorem hasWon_of_full_row (b : Board) (hn : 1 ≤ b.size) (r : Nat) (hr : r < b.size)
    (hrow : ∀ c : Nat, c < b.size → b.cell r c = 1) :
    b.hasWon 1 = true ∧ b.hasWon 1 = b.hasCompleteLineWin 1 := by
  have hline : b.hasCompleteLineWin 1 = true :=
    b.hasCompleteLineWin_white.mpr ⟨r, hr, hrow⟩
  have hwon : b.hasWon 1 = true := by
    rw [(b.hasWon_spec 1 (Or.inl rfl)).2]
    refine ⟨r, hr, ?_, ((r : Int), ((b.size - 1 : Nat) : Int)), ?_, ?_⟩
    · simpa [startCell] using hrow 0 (by omega)
    · simpa [startCell] using b.reach_along_row r hr hrow (b.size - 1) (by omega)
    · left
      refine ⟨rfl, ?_⟩
      simp only
      omega
  exact ⟨hwon, by rw [hwon, hline]⟩

/-- Scenario B: size 3 with SideA on (0,0), (0,1), (0,2) gives `hasWon(1) = true`. -/
theorem hasWon_of_full_row_witness :
    1 ≤ scenarioB.size ∧ 0 < scenarioB.size ∧
    (∀ c : Nat, c < scenarioB.size → scenarioB.cell 0 c = 1) ∧
    scenarioB.hasWon 1 = true ∧ scenarioB.hasWon 1 = scenarioB.hasCompleteLineWin 1 :=
  ⟨by decide, by decide, by decide,
    hasWon_of_full_row scenarioB (by decide) 0 (by decide) (by decide)⟩

/-- C8 (violated by the code): on every board of size at least two on which
SideB fills one column and all other cells are empty, `hasCompleteLineWin(-1)`
is true but `hasWon(-1)` is false: no offset `(DX[i], DY[i])` leads from a cell
to the one directly below it. -/
theorem hasWon_black_column_false (b : Board) (hn : 2 ≤ b.size) (c : Nat) (hc : c < b.size)
    (hfull : ∀ r : Nat, r < b.size → b.cell r c = -1)
    (hrest : ∀ r k : Nat, r < b.size → k < b.size → k ≠ c → b.cell r k = 0) :
    b.hasWon (-1) = false ∧ b.hasCompleteLineWin (-1) = true := by
  refine ⟨?_, b.hasCompleteLineWin_black.mpr ⟨c, hc, hfull⟩⟩
  have hcol : ∀ e, b.InBounds e → b.cell e.1 e.2 = -1 → e.2 = (c : Int) := by
    rintro ⟨x, y⟩ ⟨h1, h2, h3, h4⟩ hcell
    simp only at h1 h2 h3 h4 hcell ⊢
    by_contra hne
    have h0 := hrest x.toNat y.toNat (by omega) (by omega) (by omega)
    rw [Int.toNat_of_nonneg h1, Int.toNat_of_nonneg h3, hcell] at h0
    exact absurd h0 (by decide)
  cases hw : b.hasWon (-1) with
  | false => rfl
  | true =>
    obtain ⟨i, hi, hcell, t, hreach, ht⟩ := (b.hasWon_spec (-1) (Or.inr rfl)).2.mp hw
    have hin : b.InBounds (startCell (-1) i) := by
      unfold startCell Board.InBounds
      simp
      omega
    have ht1 : t.1 = (b.size : Int) - 1 := by
      rcases ht with ht | ht
      · exact absurd ht.1 (by decide)
      · exact ht.2
    have hle := (b.reach_in_column c hcol hreach (hcol _ hin hcell)).1
    have h0 : (startCell (-1) i).1 = 0 := by simp [startCell]
    omega

/-- A full SideB column on a board of size 2: the line check succeeds and the
connection check fails. -/
theorem hasWon_black_column_false_witness :
    2 ≤ blackColumn.size ∧ 0 < blackColumn.size ∧
    (∀ r : Nat, r < blackColumn.size → blackColumn.cell r (0 : Nat) = -1) ∧
    (blackColumn.hasWon (-1) = false ∧ blackColumn.hasCompleteLineWin (-1) = true) :=
  ⟨by decide, by decide, by decide,
    hasWon_black_column_false blackColumn (by decide) 0 (by decide) (by decide) (by
      intro r k hr hk hne
      have hs : blackColumn.size = 2 := rfl
      rw [hs] at hr hk
      have hk1 : k = 1 := by omega
      subst hk1
      interval_cases r <;> decide)⟩

/-- C9: on a board of size at least one, a column without a SideA stone makes
`hasWon(1)` false and a row without a SideB stone makes `hasWon(-1)` false.
Hence `hasWon` is false for both sides on the empty board, `hasWon(1)` is false
in Scenario A, and for size at least three with SideB on the whole top and
bottom rows and nothing between, `hasWon(-1)` is false. -/
theorem hasWon_cut_condition (b : Board) (hn : 1 ≤ b.size) :
    ((∃ col : Nat, col < b.size ∧ ∀ row : Nat, row < b.size → b.cell row col ≠ 1) →
      b.hasWon 1 = false) ∧
    ((∃ row : Nat, row < b.size ∧ ∀ col : Nat, col < b.size → b.cell row col ≠ -1) →
      b.hasWon (-1) = false) ∧
    (b = Board.empty b.size → b.hasWon 1 = false ∧ b.hasWon (-1) = false) ∧
    (b = scenarioA → b.hasWon 1 = false) ∧
    (3 ≤ b.size →
      (∀ col : Nat, col < b.size → b.cell 0 col = -1 ∧ b.cell ((b.size : Int) - 1) col = -1) →
      (∀ row col : Nat, 0 < row → row + 1 < b.size → col < b.size → b.cell row col = 0) →
      b.hasWon (-1) = false) := by
  have hA : (∃ col : Nat, col < b.size ∧ ∀ row : Nat, row < b.size → b.cell row col ≠ 1) →
      b.hasWon 1 = false := by
    rintro ⟨col, hcol, hnone⟩
    cases h : b.hasWon 1 with
    | false => rfl
    | true =>
      obtain ⟨row, hrow, hc⟩ := b.hasWon_white_col col hcol h
      exact absurd hc (hnone row hrow)
  have hB : (∃ row : Nat, row < b.size ∧ ∀ col : Nat, col < b.size → b.cell row col ≠ -1) →
      b.hasWon (-1) = false := by
    rintro ⟨row, hrow, hnone⟩
    cases h : b.hasWon (-1) with
    | false => rfl
    | true =>
      obtain ⟨col, hcol, hc⟩ := b.hasWon_black_row row hrow h
      exact absurd hc (hnone col hcol)
  refine ⟨hA, hB, ?_, ?_, ?_⟩
  · intro he
    have hcell : ∀ x y : Int, b.cell x y = 0 := by
      intro x y; rw [he]; exact Board.cell_empty _ x y
    exact ⟨hA ⟨0, by omega, fun row _ => by rw [hcell]; decide⟩,
      hB ⟨0, by omega, fun col _ => by rw [hcell]; decide⟩⟩
  · intro he
    subst he
    exact hA ⟨1, by decide, by decide⟩
  · intro h3 _ hmid
    refine hB ⟨1, by omega, fun col hcol => ?_⟩
    have := hmid 1 col (by decide) (by omega) hcol
    rw [this]
    decide

/-- The cut condition instantiated on Scenario A, on the empty board of size 3
and on Scenario C at size 3. -/
theorem hasWon_cut_condition_witness :
    1 ≤ scenarioA.size ∧ scenarioA.hasWon 1 = false ∧
    ((Board.empty 3).hasWon 1 = false ∧ (Board.empty 3).hasWon (-1) = false) ∧
    scenarioC.hasWon (-1) = false :=
  ⟨by decide,
    (hasWon_cut_condition scenarioA (by decide)).2.2.2.1 rfl,
    (hasWon_cut_condition (Board.empty 3) (by decide)).2.2.1 rfl,
    (hasWon_cut_condition scenarioC (by decide)).2.2.2.2 (by decide) (by decide) (by
      intro row col h1 h2 h3
      have hs : scenarioC.size = 3 := rfl
      rw [hs] at h2 h3
      have hrow : row = 1 := by omega
      subst hrow
      interval_cases col <;> decide)⟩

/-- C10: `hasCompleteLineWin(1)` is true exactly when some row is wholly marked 1,
and `hasCompleteLineWin(-1)` exactly when some column is wholly marked -1.  The
function reads the board only (it is `const`; its embedding returns no board). -/
theorem hasCompleteLineWin_iff (b : Board) :
    (b.hasCompleteLineWin 1 = true ↔
      ∃ r : Nat, r < b.size ∧ ∀ c : Nat, c < b.size → b.cell r c = 1) ∧
    (b.hasCompleteLineWin (-1) = true ↔
      ∃ c : Nat, c < b.size ∧ ∀ r : Nat, r < b.size → b.cell r c = -1) :=
  ⟨b.hasCompleteLineWin_white, b.hasCompleteLineWin_black⟩


/-! ## Full boards -/

theorem Board.isFull_iff (b : Board) :
    b.isFull = true ↔ ∀ r c : Nat, r < b.size → c < b.size → b.cell r c ≠ 0 := by
  unfold Board.isFull
  simp only [List.all_eq_true, List.mem_range, Bool.not_eq_true', decide_eq_false_iff_not]
  exact ⟨fun h r c hr hc => h r hr c hc, fun h r hr c hc => h r c hr hc⟩

/-- C11: `isFull()` is true if and only if no cell of the board holds Empty (0),
equivalently if and only if `isValidMove(r, c)` is false for every coordinate. -/
theorem isFull_iff_no_empty (b : Board) :
    (b.isFull = true ↔ ∀ r c : Nat, r < b.size → c < b.size → b.cell r c ≠ 0) ∧
    (b.isFull = true ↔ ¬ ∃ r c : Int, b.isValidMove r c = true) := by
  refine ⟨b.isFull_iff, ?_⟩
  rw [b.isFull_iff]
  constructor
  · rintro h ⟨r, c, hv⟩
    obtain ⟨⟨h1, h2, h3, h4⟩, h0⟩ := (b.isValidMove_iff r c).mp hv
    simp only at h1 h2 h3 h4
    have := h r.toNat c.toNat (by omega) (by omega)
    rw [Int.toNat_of_nonneg h1, Int.toNat_of_nonneg h3] at this
    exact this h0
  · intro h r c hr hc h0
    apply h
    refine ⟨r, c, (b.isValidMove_iff r c).mpr ⟨?_, h0⟩⟩
    unfold Board.InBounds
    simp only
    omega

/-! ## The neighbour list -/

theorem filterMap_ite_eq_filter {α β : Type} (g : α → β) (P : β → Prop) [DecidablePred P]
    (l : List α) :
    l.filterMap (fun i => if P (g i) then some (g i) else none) =
      (l.map g).filter (fun d => decide (P d)) := by
  induction l with
  | nil => rfl
  | cons a l ih =>
    by_cases h : P (g a)
    · simp [List.filterMap_cons, List.filter_cons, h, ih]
    · simp [List.filterMap_cons, List.filter_cons, h, ih]

theorem offsetCells_eq_map (x y : Int) :
    offsetCells x y = (List.range 6).map (fun i => (x + DX.getD i 0, y + DY.getD i 0)) := by
  have h6 : List.range 6 = [0, 1, 2, 3, 4, 5] := by decide
  rw [h6]
  simp [offsetCells, DX, DY, sub_eq_add_neg]

theorem Board.getNeighbours_eq_filter (b : Board) (p x y : Int) :
    b.getNeighbours p x y =
      (offsetCells x y).filter (fun d =>
        decide (0 ≤ d.1 ∧ d.1 < (b.size : Int) ∧ 0 ≤ d.2 ∧ d.2 < (b.size : Int) ∧
          b.cell d.1 d.2 = p)) := by
  rw [offsetCells_eq_map]
  exact filterMap_ite_eq_filter (fun i => (x + DX.getD i 0, y + DY.getD i 0))
    (fun d => 0 ≤ d.1 ∧ d.1 < (b.size : Int) ∧ 0 ≤ d.2 ∧ d.2 < (b.size : Int) ∧
      b.cell d.1 d.2 = p) (List.range 6)

theorem offsetCells_nodup (x y : Int) : (offsetCells x y).Nodup := by
  unfold offsetCells
  simp only [List.nodup_cons, List.mem_cons, List.mem_singleton, Prod.mk.injEq, List.not_mem_nil,
    List.nodup_nil, not_or, not_and, not_false_eq_true, and_true]
  refine ⟨⟨?_, ?_, ?_, ?_, ?_⟩, ⟨?_, ?_, ?_, ?_⟩, ⟨?_, ?_, ?_⟩, ⟨?_, ?_⟩, ?_⟩ <;> intros <;> omega

/-- C12: `getNeighbours(p, x, y)` is the list of the six cells
`(x + DX[i], y + DY[i])`, taken in the order (+1,-1), (+1,+1), (0,-1), (0,+1),
(-1,0), (-1,+1), from which the cells out of bounds or not marked `p` are
dropped; every such cell occurs in it, none occurs twice, and no coordinate in
it is out of bounds.  The result is a function of the board and the arguments. -/
theorem getNeighbours_spec (b : Board) (p x y : Int) :
    b.getNeighbours p x y =
      ([(x + 1, y - 1), (x + 1, y + 1), (x, y - 1), (x, y + 1), (x - 1, y), (x - 1, y + 1)]
        : List (Int × Int)).filter
        (fun d => decide (0 ≤ d.1 ∧ d.1 < (b.size : Int) ∧ 0 ≤ d.2 ∧ d.2 < (b.size : Int) ∧
          b.cell d.1 d.2 = p)) ∧
    (∀ d, d ∈ b.getNeighbours p x y ↔
      (∃ i, i < 6 ∧ d = (x + DX.getD i 0, y + DY.getD i 0)) ∧ b.InBounds d ∧ b.cell d.1 d.2 = p) ∧
    (b.getNeighbours p x y).Nodup ∧
    (∀ d ∈ b.getNeighbours p x y, b.InBounds d) := by
  refine ⟨b.getNeighbours_eq_filter p x y, fun d => b.mem_getNeighbours p x y d, ?_, ?_⟩
  · rw [b.getNeighbours_eq_filter]
    exact (offsetCells_nodup x y).filter _
  · intro d hd
    exact ((b.mem_getNeighbours p x y d).mp hd).2.1

/-! ## Construction -/

/-- C13 as stated fails: constructing a board with `n = 0` is not rejected, it
yields the board of size 0 without cells. -/
theorem construct_zero_accepted :
    Board.construct 0 = some { size := 0, board := [] } ∧ ¬ (Board.construct 0 = none) := by
  decide

/-- C13, amended: the constructor performs no check of its own.  For every
`n ≥ 0`, zero included, it yields a well-formed board of size `n` whose cells
are all Empty (no cell at all for `n = 0`); only for negative `n` no board is
produced. -/
theorem construct_spec (n : Int) :
    (n < 0 → Board.construct n = none) ∧
    (0 ≤ n → ∃ b, Board.construct n = some b ∧ (b.size : Int) = n ∧ b.WF ∧
      ∀ x y : Int, b.cell x y = 0) := by
  constructor
  · intro h
    unfold Board.construct
    rw [if_pos h]
  · intro h
    refine ⟨Board.empty n.toNat, ?_, ?_, ?_, fun x y => Board.cell_empty _ x y⟩
    · unfold Board.construct
      rw [if_neg (by omega)]
    · show ((n.toNat : Nat) : Int) = n
      omega
    · exact square_replicate _ _

/-- The constructor at `n = 3` and at `n = -1`. -/
theorem construct_spec_witness :
    ((0 : Int) ≤ 3 ∧ ∃ b, Board.construct 3 = some b ∧ (b.size : Int) = 3 ∧ b.WF ∧
      ∀ x y : Int, b.cell x y = 0) ∧
    ((-1 : Int) < 0 ∧ Board.construct (-1) = none) :=
  ⟨⟨by decide, (construct_spec 3).2 (by decide)⟩, ⟨by decide, (construct_spec (-1)).1 (by decide)⟩⟩

/-! ## Symmetry of the offsets -/

/-- C20 (violated by the code): the offset table is not closed under negation.
Cell (1,1) is (0,0) plus the offset (+1,+1), but (0,0) is not (1,1) plus any
offset; so on the board of size 2 with SideA on (0,0) and (1,1), the cell (1,1)
is in `getNeighbours` of (0,0) while (0,0) is not in `getNeighbours` of (1,1). -/
theorem offsets_not_symmetric :
    Adjacent (0, 0) (1, 1) ∧ ¬ Adjacent (1, 1) (0, 0) ∧
    (∃ i, i < 6 ∧ ∀ j, j < 6 → (DX.getD j 0, DY.getD j 0) ≠ (-DX.getD i 0, -DY.getD i 0)) ∧
    ((1, 1) ∈ diagonalBoard.getNeighbours 1 0 0 ∧ (0, 0) ∉ diagonalBoard.getNeighbours 1 1 1) := by
  refine ⟨⟨1, by decide, by decide⟩, ?_, ⟨1, by decide, by decide⟩, by decide⟩
  rintro ⟨i, hi, h⟩
  interval_cases i <;> simp [DX, DY, Prod.ext_iff] at h


/-! ## The position evaluation as a sum -/

theorem foldl_range_add (step : Int → Nat → Int) (f : Nat → Int)
    (hstep : ∀ acc i, step acc i = acc + f i) (a : Int) (n : Nat) :
    (List.range n).foldl step a = a + Finset.sum (Finset.range n) f := by
  induction n with
  | zero => simp
  | succ n ih =>
    rw [List.range_succ, List.foldl_append, ih, List.foldl_cons, List.foldl_nil, hstep,
      Finset.sum_range_succ, add_assoc]

theorem Board.evaluatePosition_eq_sum (b : Board) (s : Int) :
    b.evaluatePosition s = b.positionSum s := by
  have inner : ∀ (i : Nat) (a : Int),
      (List.range b.size).foldl (fun (score : Int) (j : Nat) =>
        if b.cell i j = s then score + (progress s i j + 1)
        else if b.cell i j = -s then score - (progress s i j + 1)
        else score) a = a + Finset.sum (Finset.range b.size) (fun j => b.cellWeight s i j) := by
    intro i a
    apply foldl_range_add
    intro acc j
    unfold Board.cellWeight
    split
    · rfl
    · split
      · ring
      · ring
  have outer : (List.range b.size).foldl (fun (score : Int) (i : Nat) =>
      (List.range b.size).foldl (fun (score : Int) (j : Nat) =>
        if b.cell i j = s then score + (progress s i j + 1)
        else if b.cell i j = -s then score - (progress s i j + 1)
        else score) score) 0 = b.positionSum s := by
    rw [foldl_range_add _ (fun i => Finset.sum (Finset.range b.size) (fun j => b.cellWeight s i j))
      (fun acc i => inner i acc)]
    unfold Board.positionSum
    simp
  rw [← outer]
  unfold Board.evaluatePosition
  by_cases hs : s = 1
  · simp only [hs, if_true, progress, bind_pure_comp, List.map_eq_map, List.foldl_map]
  · simp only [hs, if_false, progress, bind_pure_comp, List.map_eq_map, List.foldl_map]

theorem two_mul_sum_succ (n : Nat) :
    2 * Finset.sum (Finset.range n) (fun j => ((j : Int) + 1)) = (n : Int) * ((n : Int) + 1) := by
  induction n with
  | zero => simp
  | succ n ih =>
    rw [Finset.sum_range_succ, mul_add, ih]
    push_cast
    ring

theorem sum_progress (s : Int) (n : Nat) :
    2 * Finset.sum (Finset.range n) (fun i =>
      Finset.sum (Finset.range n) (fun j => progress s i j + 1))
      = (n : Int) * ((n : Int) * ((n : Int) + 1)) := by
  by_cases hs : s = 1
  · simp only [progress, hs, if_true, Finset.sum_const, Finset.card_range, nsmul_eq_mul]
    rw [← two_mul_sum_succ n]
    ring
  · simp only [progress, hs, if_false, Finset.sum_const, Finset.card_range, nsmul_eq_mul]
    rw [← Finset.mul_sum, ← two_mul_sum_succ n]
    ring

theorem Board.cellWeight_le (b : Board) (s : Int) (i j : Nat) :
    b.cellWeight s i j ≤ progress s i j + 1 ∧ -(progress s i j + 1) ≤ b.cellWeight s i j := by
  have hp : 0 ≤ progress s i j := by
    unfold progress
    split <;> omega
  unfold Board.cellWeight
  split
  · constructor <;> omega
  · split
    · constructor <;> omega
    · constructor <;> omega

/-- Twice the position evaluation lies between `-n²(n+1)` and `n²(n+1)`. -/
theorem Board.evaluatePosition_bounds (b : Board) (s : Int) :
    2 * b.evaluatePosition s ≤ (b.size : Int) * ((b.size : Int) * ((b.size : Int) + 1)) ∧
    -((b.size : Int) * ((b.size : Int) * ((b.size : Int) + 1))) ≤ 2 * b.evaluatePosition s := by
  rw [b.evaluatePosition_eq_sum, ← sum_progress s b.size]
  unfold Board.positionSum
  constructor
  · apply mul_le_mul_of_nonneg_left _ (by decide)
    exact Finset.sum_le_sum fun i _ => Finset.sum_le_sum fun j _ => (b.cellWeight_le s i j).1
  · rw [← mul_neg, ← Finset.sum_neg_distrib]
    apply mul_le_mul_of_nonneg_left _ (by decide)
    refine Finset.sum_le_sum fun i _ => ?_
    rw [← Finset.sum_neg_distrib]
    exact Finset.sum_le_sum fun j _ => (b.cellWeight_le s i j).2

theorem Board.getNeighbours_length_le (b : Board) (p x y : Int) :
    (b.getNeighbours p x y).length ≤ 6 := by
  unfold Board.getNeighbours
  exact le_trans (List.length_filterMap_le _ _) (by simp)

theorem SmartPlayer.evaluateMove_eq (b : Board) (s x y : Int) :
    SmartPlayer.evaluateMove b s x y =
      if b.hasWon s = true then 10000
      else 10 * ((b.getNeighbours s x y).length : Int) + 5 * (if s = 1 then y else x)
        + b.evaluatePosition s := by
  unfold SmartPlayer.evaluateMove
  by_cases hw : b.hasWon s = true
  · simp [hw]
  · by_cases hs : s = 1
    · subst hs
      simp [hw]
      ring
    · simp [hw, hs]
      ring


/-! ## Scores of the heuristic player -/

/-- C14 as stated fails: in Scenario B, with the SideA stone just placed on
(0,2), `hasWon(1)` is true and `evaluateMove` returns exactly 10000, whereas the
sum of the four terms is 10000 + 10 + 10 + 6 = 10026. -/
theorem evaluateMove_not_four_terms :
    scenarioB.cell 0 2 = 1 ∧ scenarioB.hasWon 1 = true ∧
    SmartPlayer.evaluateMove scenarioB 1 0 2 = 10000 ∧
    SmartPlayer.fourTermScore scenarioB 1 0 2 = 10026 ∧
    SmartPlayer.evaluateMove scenarioB 1 0 2 ≠ SmartPlayer.fourTermScore scenarioB 1 0 2 := by
  decide

theorem cube_le_of_le {n : Nat} {m : Nat} (h : n ≤ m) :
    (n : Int) * ((n : Int) * ((n : Int) + 1)) ≤ (m : Int) * ((m : Int) * ((m : Int) + 1)) := by
  have h1 : n * (n * (n + 1)) ≤ m * (m * (m + 1)) :=
    Nat.mul_le_mul h (Nat.mul_le_mul h (Nat.succ_le_succ h))
  exact_mod_cast h1

/-! ## The scores within the range of `int` -/

theorem Board.abs_cellWeight_le (b : Board) (s : Int) (i j : Nat) :
    |b.cellWeight s i j| ≤ progress s i j + 1 :=
  abs_le.mpr ⟨(b.cellWeight_le s i j).2, (b.cellWeight_le s i j).1⟩

/-- On a board of size at most 1625 the absolute values of all cell contributions
add up to at most `2^31 - 1`; every running value of `score` in
`evaluatePosition` is a sum of some of the contributions, so none leaves the
range of `int`. -/
theorem Board.sum_abs_cellWeight_le (b : Board) (s : Int) (hsize : b.size ≤ 1625) :
    Finset.sum (Finset.range b.size) (fun i => Finset.sum (Finset.range b.size) (fun j =>
      |b.cellWeight s i j|)) ≤ 2147483647 := by
  have h1 : Finset.sum (Finset.range b.size) (fun i => Finset.sum (Finset.range b.size)
      (fun j => |b.cellWeight s i j|))
      ≤ Finset.sum (Finset.range b.size) (fun i => Finset.sum (Finset.range b.size)
        (fun j => progress s i j + 1)) :=
    Finset.sum_le_sum fun i _ => Finset.sum_le_sum fun j _ => b.abs_cellWeight_le s i j
  have h2 := sum_progress s b.size
  have hcube := cube_le_of_le hsize
  norm_num at hcube
  omega

/-- With `size ≤ 1625` and the trial cell on the board, the value of
`evaluateMove` and the three terms it adds up lie in the range of `int`. -/
theorem SmartPlayer.evaluateMove_range (b : Board) (hsize : b.size ≤ 1625) (s x y : Int)
    (hin : b.InBounds (x, y)) :
    -2147483648 ≤ SmartPlayer.evaluateMove b s x y ∧
    SmartPlayer.evaluateMove b s x y ≤ 2147483647 := by
  rw [SmartPlayer.evaluateMove_eq]
  by_cases hw : b.hasWon s = true
  · rw [if_pos hw]
    constructor <;> decide
  · rw [if_neg hw]
    have hlen := b.getNeighbours_length_le s x y
    have hpos := b.evaluatePosition_bounds s
    have hcube := cube_le_of_le hsize
    obtain ⟨h1, h2, h3, h4⟩ := hin
    simp only at h1 h2 h3 h4
    have hcoord : 0 ≤ (if s = 1 then y else x) ∧ (if s = 1 then y else x) ≤ 1624 := by
      split <;> omega
    have hlen1 : ((b.getNeighbours s x y).length : Int) ≤ 6 := by exact_mod_cast hlen
    have hlen0 : (0 : Int) ≤ ((b.getNeighbours s x y).length : Int) := Int.natCast_nonneg _
    norm_num at hcube
    constructor <;> omega

/-- C14, amended: on every board of size at most 1625 and for every trial cell
`(x, y)` on the board, `evaluateMove(x, y)` is exactly 10000 when `hasWon(s)` is
true on the board, and otherwise the sum of ten times the number of neighbours
of `(x, y)` marked `s`, five times the progress coordinate of `(x, y)` (`y` for
SideA, `x` for SideB) and `evaluatePosition(s)`; `evaluatePosition(s)` is the
sum over all cells of `+(p+1)` for cells marked `s` and `-(p+1)` for cells
marked `-s`, with `p` the column index for SideA and the row index for SideB.
Within these limits the arithmetic stays in the range of a 32-bit `int`: the
absolute values of the cell contributions add up to at most `2^31 - 1`, which
bounds every running value of `score` in `evaluatePosition`, and the value of
`evaluateMove` lies between `-2^31` and `2^31 - 1`. -/
theorem evaluateMove_spec (b : Board) (hsize : b.size ≤ 1625) (s x y : Int)
    (hin : b.InBounds (x, y)) :
    SmartPlayer.evaluateMove b s x y =
      (if b.hasWon s = true then 10000
       else 10 * ((b.getNeighbours s x y).length : Int) + 5 * (if s = 1 then y else x)
        + b.evaluatePosition s) ∧
    b.evaluatePosition s =
      Finset.sum (Finset.range b.size) (fun i => Finset.sum (Finset.range b.size) (fun j =>
        if b.cell i j = s then (if s = 1 then (j : Int) else (i : Int)) + 1
        else if b.cell i j = -s then -((if s = 1 then (j : Int) else (i : Int)) + 1)
        else 0)) ∧
    Finset.sum (Finset.range b.size) (fun i => Finset.sum (Finset.range b.size) (fun j =>
        |if b.cell i j = s then (if s = 1 then (j : Int) else (i : Int)) + 1
        else if b.cell i j = -s then -((if s = 1 then (j : Int) else (i : Int)) + 1)
        else 0|)) ≤ 2147483647 ∧
    -2147483648 ≤ SmartPlayer.evaluateMove b s x y ∧
    SmartPlayer.evaluateMove b s x y ≤ 2147483647 :=
  ⟨SmartPlayer.evaluateMove_eq b s x y, b.evaluatePosition_eq_sum s,
    b.sum_abs_cellWeight_le s hsize, SmartPlayer.evaluateMove_range b hsize s x y hin⟩

/-- Scenario A with the SideA stone on (2,0): no win, one neighbour marked SideA,
progress 0 and position evaluation 3, hence the score 13. -/
theorem evaluateMove_spec_witness :
    scenarioA.size ≤ 1625 ∧ scenarioA.InBounds (2, 0) ∧
    SmartPlayer.evaluateMove scenarioA 1 2 0 = 13 ∧
    scenarioA.evaluatePosition 1 = 3 ∧
    -2147483648 ≤ SmartPlayer.evaluateMove scenarioA 1 2 0 ∧
    SmartPlayer.evaluateMove scenarioA 1 2 0 ≤ 2147483647 :=
  ⟨by decide, by unfold Board.InBounds; decide,
    (evaluateMove_spec scenarioA (by decide) 1 2 0 (by unfold Board.InBounds; decide)).1.trans
      (by decide),
    by decide,
    (evaluateMove_spec scenarioA (by decide) 1 2 0
      (by unfold Board.InBounds; decide)).2.2.2⟩

/-! ## The winning bonus against the other terms -/

set_option maxRecDepth 1000000 in
/-- C19 as stated fails: on the board of size 27 with SideB on column 0 and SideA
on every other cell, the SideA stone on (0,1) does not create a connection win,
yet `evaluateMove` gives it 10177, more than the winning score 10000. -/
theorem winning_bonus_not_dominant :
    wideBoard.cell 0 1 = 1 ∧ wideBoard.hasWon 1 = false ∧
    SmartPlayer.evaluateMove wideBoard 1 0 1 = 10177 ∧
    ¬ (SmartPlayer.evaluateMove wideBoard 1 0 1 < 10000) := by
  decide

/-- C19, amended: on every board of size at most 26 and for every side, a trial
placement on an in-bounds cell that creates a connection win scores 10000, and
one that does not scores strictly less than 10000. -/
theorem winning_bonus_dominant (b : Board) (hsize : b.size ≤ 26) (s x y : Int)
    (hin : b.InBounds (x, y)) :
    (b.hasWon s = true → SmartPlayer.evaluateMove b s x y = 10000) ∧
    (b.hasWon s = false → SmartPlayer.evaluateMove b s x y < 10000) := by
  rw [SmartPlayer.evaluateMove_eq]
  constructor
  · intro hw
    rw [if_pos hw]
  · intro hw
    rw [if_neg (by simp [hw])]
    have hlen := b.getNeighbours_length_le s x y
    have hpos := (b.evaluatePosition_bounds s).1
    have hcube := cube_le_of_le hsize
    obtain ⟨h1, h2, h3, h4⟩ := hin
    simp only at h1 h2 h3 h4
    have hcoord : (if s = 1 then y else x) ≤ 25 := by
      split <;> omega
    have hlen' : ((b.getNeighbours s x y).length : Int) ≤ 6 := by exact_mod_cast hlen
    norm_num at hcube
    omega

/-- The dominance of the bonus on Scenario B (a win) and on Scenario A (no win). -/
theorem winning_bonus_dominant_witness :
    scenarioB.size ≤ 26 ∧ scenarioB.InBounds (0, 2) ∧ scenarioB.hasWon 1 = true ∧
    SmartPlayer.evaluateMove scenarioB 1 0 2 = 10000 ∧
    scenarioA.hasWon 1 = false ∧ SmartPlayer.evaluateMove scenarioA 1 2 0 < 10000 :=
  ⟨by decide, by unfold Board.InBounds; decide, by decide,
    (winning_bonus_dominant scenarioB (by decide) 1 0 2 (by unfold Board.InBounds; decide)).1
      (by decide),
    by decide,
    (winning_bonus_dominant scenarioA (by decide) 1 2 0 (by unfold Board.InBounds; decide)).2
      (by decide)⟩


/-! ## The scan of `SmartPlayer::getMove` -/

theorem foldl_track {σ ι : Type} (f : σ → ι → σ) (Inv Done : σ → Prop) (Trig ok : ι → Prop)
    (hstep : ∀ st i, ok i → Inv st →
      Inv (f st i) ∧ (Done st → Done (f st i)) ∧ (Trig i → Done (f st i))) :
    ∀ (l : List ι), (∀ i ∈ l, ok i) → ∀ st, Inv st →
      Inv (l.foldl f st) ∧ (Done st → Done (l.foldl f st)) ∧
        ((∃ i ∈ l, Trig i) → Done (l.foldl f st)) := by
  intro l
  induction l with
  | nil =>
    intro _ st hinv
    exact ⟨hinv, fun h => h, fun ⟨i, hi, _⟩ => absurd hi (List.not_mem_nil i)⟩
  | cons a rest ih =>
    intro hok st hinv
    obtain ⟨h1, h2, h3⟩ := hstep st a (hok a (List.mem_cons_self _ _)) hinv
    obtain ⟨k1, k2, k3⟩ := ih (fun i hi => hok i (List.mem_cons_of_mem _ hi)) (f st a) h1
    rw [List.foldl_cons]
    refine ⟨k1, fun hd => k2 (h2 hd), ?_⟩
    rintro ⟨i, hi, ht⟩
    rcases List.mem_cons.mp hi with rfl | hi
    · exact k2 (h3 ht)
    · exact k3 ⟨i, hi, ht⟩

theorem SmartPlayer.tryCell_invalid (s : Int) (st : SmartState) (i j : Nat)
    (hv : ¬ st.board.isValidMove i j = true) : SmartPlayer.tryCell s st i j = st := by
  unfold SmartPlayer.tryCell
  rw [if_neg hv]

theorem SmartPlayer.tryCell_valid (s : Int) (hs : s ≠ 0) (st : SmartState) (hwf : st.board.WF)
    (i j : Nat) (hv : st.board.isValidMove i j = true) :
    SmartPlayer.tryCell s st i j =
      if SmartPlayer.evaluateMove (st.board.setCell i j s) s i j > st.bestScore then
        { board := st.board.setCell i j s, bestMove := ((i : Int), (j : Int)),
          bestScore := SmartPlayer.evaluateMove (st.board.setCell i j s) s i j }
      else { st with board := st.board.setCell i j s } := by
  have hin := ((st.board.isValidMove_iff i j).mp hv).1
  have hmk : st.board.makeMove i j s = (true, st.board.setCell i j s) := by
    unfold Board.makeMove; rw [if_pos hv]
  have hcell : (st.board.setCell i j s).cell i j = s := Board.cell_setCell_self hwf hin s
  have hnv : ¬ (st.board.setCell i j s).isValidMove i j = true := by
    intro h
    have := ((Board.isValidMove_iff _ _ _).mp h).2
    rw [hcell] at this
    exact hs this
  have hmk2 : (st.board.setCell i j s).makeMove i j 0 = (false, st.board.setCell i j s) := by
    unfold Board.makeMove; rw [if_neg hnv]
  unfold SmartPlayer.tryCell
  simp only [hv, if_true, hmk, hmk2]

theorem SmartPlayer.evaluateMove_gt_sentinel (b : Board) (hsize : b.size ≤ 125) (s x y : Int)
    (hx : 0 ≤ x) (hy : 0 ≤ y) : SmartPlayer.evaluateMove b s x y > -999999 := by
  rw [SmartPlayer.evaluateMove_eq]
  split
  · decide
  · have hpos := (b.evaluatePosition_bounds s).2
    have hcube := cube_le_of_le hsize
    have hcoord : 0 ≤ (if s = 1 then y else x) := by
      split <;> assumption
    norm_num at hcube
    omega

theorem SmartPlayer.tryCell_step (b : Board) (hsize : b.size ≤ 125) (s : Int) (hs : s ≠ 0)
    (i : Nat) (hi : i < b.size) (st : SmartState) (j : Nat) (hj : j < b.size)
    (hinv : b.Keeps st.board ∧ (st.Picked b ∨ (st.bestScore = -999999 ∧ st.board = b))) :
    (b.Keeps (SmartPlayer.tryCell s st i j).board ∧
      ((SmartPlayer.tryCell s st i j).Picked b ∨
        ((SmartPlayer.tryCell s st i j).bestScore = -999999 ∧
          (SmartPlayer.tryCell s st i j).board = b))) ∧
    (st.Picked b → (SmartPlayer.tryCell s st i j).Picked b) ∧
    (b.isValidMove i j = true → (SmartPlayer.tryCell s st i j).Picked b) := by
  obtain ⟨hk, hcase⟩ := hinv
  have hin : b.InBounds ((i : Int), (j : Int)) := by
    unfold Board.InBounds
    simp only
    omega
  by_cases hv : st.board.isValidMove i j = true
  · have hkeep := (SmartPlayer.tryCell_keeps s hs st hk.2.1 i j (by rw [hk.1]; exact hi)
      (by rw [hk.1]; exact hj)).1
    have hk2 : b.Keeps (SmartPlayer.tryCell s st i j).board := hk.chain hkeep
    have hbv : b.isValidMove i j = true := by
      refine (b.isValidMove_iff i j).mpr ⟨hin, ?_⟩
      by_contra hne
      exact hk.2.2 i j hin hne ((st.board.isValidMove_iff i j).mp hv).2
    have hgt := SmartPlayer.evaluateMove_gt_sentinel (st.board.setCell i j s)
      (by rw [Board.setCell_size, hk.1]; exact hsize) s i j (by omega) (by omega)
    have hpick : (SmartPlayer.tryCell s st i j).Picked b := by
      rw [SmartPlayer.tryCell_valid s hs st hk.2.1 i j hv]
      split
      · exact hbv
      · rename_i hle
        rcases hcase with hp | ⟨hbest, -⟩
        · exact hp
        · rw [hbest] at hle
          exact absurd hgt hle
    exact ⟨⟨hk2, Or.inl hpick⟩, fun _ => hpick, fun _ => hpick⟩
  · rw [SmartPlayer.tryCell_invalid s st i j hv]
    refine ⟨⟨hk, hcase⟩, fun h => h, ?_⟩
    intro hbv
    rcases hcase with hp | ⟨-, hb⟩
    · exact hp
    · rw [hb] at hv
      exact absurd hbv hv

/-- C15, amended: on every well-formed board of size at most 125 that has an
empty cell, and for both sides, `SmartPlayer::getMove` returns a coordinate that
is in bounds and was Empty before the call; it is not the sentinel (-1, -1). -/
theorem smart_getMove_legal (b : Board) (hwf : b.WF) (hsize : b.size ≤ 125) (s : Int)
    (hs : s = 1 ∨ s = -1) (r c : Int) (hempty : b.isValidMove r c = true) :
    b.InBounds (SmartPlayer.getMove b s) ∧
    b.cell (SmartPlayer.getMove b s).1 (SmartPlayer.getMove b s).2 = 0 ∧
    SmartPlayer.getMove b s ≠ (-1, -1) := by
  have hs0 : s ≠ 0 := by rcases hs with rfl | rfl <;> decide
  have hrow : ∀ (st : SmartState) (i : Nat), i < b.size →
      (b.Keeps st.board ∧ (st.Picked b ∨ (st.bestScore = -999999 ∧ st.board = b))) →
      (b.Keeps ((List.range b.size).foldl (fun st j => SmartPlayer.tryCell s st i j) st).board ∧
        (((List.range b.size).foldl (fun st j => SmartPlayer.tryCell s st i j) st).Picked b ∨
          (((List.range b.size).foldl (fun st j => SmartPlayer.tryCell s st i j) st).bestScore
              = -999999 ∧
            ((List.range b.size).foldl (fun st j => SmartPlayer.tryCell s st i j) st).board = b)))
      ∧ (st.Picked b →
        ((List.range b.size).foldl (fun st j => SmartPlayer.tryCell s st i j) st).Picked b)
      ∧ ((∃ j ∈ List.range b.size, b.isValidMove i j = true) →
        ((List.range b.size).foldl (fun st j => SmartPlayer.tryCell s st i j) st).Picked b) := by
    intro st i hi hinv
    exact foldl_track (fun st j => SmartPlayer.tryCell s st i j)
      (fun st => b.Keeps st.board ∧ (st.Picked b ∨ (st.bestScore = -999999 ∧ st.board = b)))
      (fun st => st.Picked b) (fun j => b.isValidMove i j = true) (fun j => j < b.size)
      (fun st j hj hinv => SmartPlayer.tryCell_step b hsize s hs0 i hi st j hj hinv)
      (List.range b.size) (fun j hj => List.mem_range.mp hj) st hinv
  have hall := foldl_track
    (fun st i => (List.range b.size).foldl (fun st j => SmartPlayer.tryCell s st i j) st)
    (fun st => b.Keeps st.board ∧ (st.Picked b ∨ (st.bestScore = -999999 ∧ st.board = b)))
    (fun st => st.Picked b) (fun i => ∃ j ∈ List.range b.size, b.isValidMove i j = true)
    (fun i => i < b.size) (fun st i hi hinv => hrow st i hi hinv)
    (List.range b.size) (fun i hi => List.mem_range.mp hi)
    { board := b, bestMove := (-1, -1), bestScore := -999999 }
    ⟨Board.Keeps.same hwf, Or.inr ⟨rfl, rfl⟩⟩
  obtain ⟨⟨h1, h2, h3, h4⟩, h0⟩ := (b.isValidMove_iff r c).mp hempty
  simp only at h1 h2 h3 h4
  have hpicked : b.isValidMove (SmartPlayer.getMove b s).1 (SmartPlayer.getMove b s).2 = true := by
    refine hall.2.2 ⟨r.toNat, List.mem_range.mpr (by omega), c.toNat,
      List.mem_range.mpr (by omega), ?_⟩
    rw [Int.toNat_of_nonneg h1, Int.toNat_of_nonneg h3]
    exact hempty
  obtain ⟨hin, hzero⟩ := (b.isValidMove_iff _ _).mp hpicked
  refine ⟨hin, hzero, ?_⟩
  intro heq
  rw [heq] at hin
  exact absurd hin.1 (by decide)

/-- On the empty board of size 2 the move returned for SideA is a legal one. -/
theorem smart_getMove_legal_witness :
    (Board.empty 2).WF ∧ (Board.empty 2).size ≤ 125 ∧ ((1 : Int) = 1 ∨ (1 : Int) = -1) ∧
    (Board.empty 2).isValidMove 0 0 = true ∧
    ((Board.empty 2).InBounds (SmartPlayer.getMove (Board.empty 2) 1) ∧
      (Board.empty 2).cell (SmartPlayer.getMove (Board.empty 2) 1).1
        (SmartPlayer.getMove (Board.empty 2) 1).2 = 0 ∧
      SmartPlayer.getMove (Board.empty 2) 1 ≠ (-1, -1)) :=
  ⟨by unfold Board.WF; decide, by decide, Or.inl rfl, by decide,
    smart_getMove_legal (Board.empty 2) (by unfold Board.WF; decide) (by decide) 1 (Or.inl rfl)
      0 0 (by decide)⟩


/-! ## A board on which every trial scores below the initial best score -/

theorem getD_replicate_lt {α : Type} (n k : Nat) (a d : α) (h : k < n) :
    (List.replicate n a).getD k d = a := by
  simp [List.getD_eq_getElem?_getD, List.getElem?_replicate, h]

theorem bigBoard_cell (i j : Nat) (hi : i < 126) (hj : j < 126) :
    bigBoard.cell i j = if i = 0 ∧ j = 0 then 0 else -1 := by
  unfold Board.cell bigBoard
  simp only [Int.toNat_ofNat]
  cases i with
  | zero =>
    cases j with
    | zero => simp only [List.getD_cons_zero, and_self, if_true]
    | succ j =>
      simp only [List.getD_cons_zero, List.getD_cons_succ]
      rw [getD_replicate_lt _ _ _ _ (by omega)]
      simp
  | succ i =>
    simp only [List.getD_cons_succ]
    rw [getD_replicate_lt _ _ _ _ (by omega), getD_replicate_lt _ _ _ _ hj]
    simp

theorem bigBoard_wf : bigBoard.WF := by
  unfold Board.WF bigBoard
  refine ⟨by simp, ?_⟩
  intro row hrow
  rcases List.mem_cons.mp hrow with rfl | hrow
  · simp
  · rw [(List.mem_replicate.mp hrow).2]
    simp

theorem sum_corner (n : Nat) (hn : 0 < n) :
    Finset.sum (Finset.range n) (fun i => Finset.sum (Finset.range n) (fun j =>
      (-(((j : Int)) + 1) + if i = 0 then (if j = 0 then (2 : Int) else 0) else 0))) * 2
      = -((n : Int) * ((n : Int) * ((n : Int) + 1))) + 4 := by
  have h1 : ∀ i : Nat, Finset.sum (Finset.range n) (fun j =>
      (-(((j : Int)) + 1) + if i = 0 then (if j = 0 then (2 : Int) else 0) else 0))
      = -(Finset.sum (Finset.range n) (fun j => ((j : Int) + 1)))
        + (if i = 0 then (2 : Int) else 0) := by
    intro i
    rw [Finset.sum_add_distrib, Finset.sum_neg_distrib]
    congr 1
    by_cases hi : i = 0
    · simp only [hi, if_true]
      rw [Finset.sum_ite_eq' (Finset.range n) 0 (fun _ => (2 : Int))]
      simp [hn]
    · simp [hi]
  simp only [h1]
  rw [Finset.sum_add_distrib, Finset.sum_ite_eq' (Finset.range n) 0 (fun _ => (2 : Int))]
  simp only [Finset.mem_range, hn, if_true, Finset.sum_const, Finset.card_range, nsmul_eq_mul]
  have hg := two_mul_sum_succ n
  rw [add_mul, mul_neg, neg_mul, mul_assoc, mul_comm _ (2 : Int), hg]
  ring

/-- Every board that keeps the stones of `bigBoard` gives every trial a score
of at most -999999. -/
theorem bigBoard_low_scores (b1 : Board) (hsize : b1.size = 126)
    (hagree : bigBoard.Agree b1) (x y : Int) (hin : b1.InBounds (x, y)) :
    SmartPlayer.evaluateMove b1 1 x y ≤ -999999 := by
  have hcell : ∀ i j : Nat, i < 126 → j < 126 → ¬ (i = 0 ∧ j = 0) → b1.cell i j = -1 := by
    intro i j hi hj hne
    have h0 := bigBoard_cell i j hi hj
    rw [if_neg hne] at h0
    have hb : bigBoard.InBounds ((i : Int), (j : Int)) := by
      unfold Board.InBounds
      simp only
      have : bigBoard.size = 126 := rfl
      omega
    rw [hagree i j hb (by rw [h0]; decide), h0]
  have hwon : ¬ b1.hasWon 1 = true := by
    intro hw
    obtain ⟨row, hrow, hc⟩ := b1.hasWon_white_col 1 (by omega) hw
    rw [hsize] at hrow
    have := hcell row 1 hrow (by decide) (by omega)
    rw [hc] at this
    exact absurd this (by decide)
  rw [SmartPlayer.evaluateMove_eq, if_neg hwon, if_pos rfl]
  have hlen : ((b1.getNeighbours 1 x y).length : Int) ≤ 6 := by
    exact_mod_cast b1.getNeighbours_length_le 1 x y
  have hy : y ≤ 125 := by
    have := hin.2.2.2
    simp only at this
    omega
  have hweight : ∀ i j : Nat, i < 126 → j < 126 → b1.cellWeight 1 i j ≤
      -(((j : Int)) + 1) + if i = 0 then (if j = 0 then (2 : Int) else 0) else 0 := by
    intro i j hi hj
    by_cases hne : i = 0 ∧ j = 0
    · have := (b1.cellWeight_le 1 i j).1
      simp only [progress, if_true] at this
      rw [hne.1, hne.2] at this ⊢
      simpa using this
    · have hc := hcell i j hi hj hne
      have hw : b1.cellWeight 1 i j = -((j : Int) + 1) := by
        unfold Board.cellWeight progress
        rw [hc]
        simp
      rw [hw]
      by_cases hi0 : i = 0
      · have hj0 : j ≠ 0 := fun h => hne ⟨hi0, h⟩
        simp [hi0, hj0]
      · simp [hi0]
  have hsum : b1.evaluatePosition 1 * 2 ≤ -((126 : Int) * ((126 : Int) * ((126 : Int) + 1))) + 4 := by
    rw [b1.evaluatePosition_eq_sum]
    unfold Board.positionSum
    rw [hsize]
    have h126 := sum_corner 126 (by decide)
    rw [show ((126 : Nat) : Int) = 126 from rfl] at h126
    rw [← h126]
    apply mul_le_mul_of_nonneg_right _ (by decide)
    exact Finset.sum_le_sum fun i hi => Finset.sum_le_sum fun j hj =>
      hweight i j (Finset.mem_range.mp hi) (Finset.mem_range.mp hj)
  norm_num at hsum
  omega

theorem SmartPlayer.tryCell_low (b : Board) (s : Int) (hs : s ≠ 0)
    (hlow : ∀ b1 : Board, b1.size = b.size → b.Agree b1 → ∀ x y : Int, b1.InBounds (x, y) →
      SmartPlayer.evaluateMove b1 s x y ≤ -999999)
    (i : Nat) (hi : i < b.size) (st : SmartState) (j : Nat) (hj : j < b.size)
    (hinv : (b.Keeps st.board ∧ b.Agree st.board) ∧
      st.bestMove = (-1, -1) ∧ st.bestScore = -999999) :
    (b.Keeps (SmartPlayer.tryCell s st i j).board ∧ b.Agree (SmartPlayer.tryCell s st i j).board) ∧
      (SmartPlayer.tryCell s st i j).bestMove = (-1, -1) ∧
      (SmartPlayer.tryCell s st i j).bestScore = -999999 := by
  obtain ⟨⟨hk, hag⟩, hmove, hbest⟩ := hinv
  by_cases hv : st.board.isValidMove i j = true
  · have hkeep := (SmartPlayer.tryCell_keeps s hs st hk.2.1 i j (by rw [hk.1]; exact hi)
      (by rw [hk.1]; exact hj)).1
    have hin := ((st.board.isValidMove_iff i j).mp hv).1
    have hzero := ((st.board.isValidMove_iff i j).mp hv).2
    have hag1 : b.Agree (st.board.setCell i j s) := by
      intro x y hxy hne
      have h1 := hag x y hxy hne
      have hxy1 : st.board.InBounds (x, y) := by
        unfold Board.InBounds at hxy ⊢
        rw [hk.1]
        exact hxy
      have hneq : (x, y) ≠ ((i : Int), (j : Int)) := by
        intro heq
        have e1 : x = (i : Int) := congrArg Prod.fst heq
        have e2 : y = (j : Int) := congrArg Prod.snd heq
        rw [e1, e2, hzero] at h1
        rw [e1, e2] at hne
        exact hne h1.symm
      rw [st.board.cell_setCell_ne s hin hxy1 hneq]
      exact h1
    have hin1 : (st.board.setCell i j s).InBounds ((i : Int), (j : Int)) := hin
    have hle := hlow (st.board.setCell i j s) (by rw [Board.setCell_size, hk.1]) hag1 i j hin1
    have hnot : ¬ SmartPlayer.evaluateMove (st.board.setCell i j s) s i j > st.bestScore := by
      rw [hbest]
      omega
    have heq := SmartPlayer.tryCell_valid s hs st hk.2.1 i j hv
    rw [if_neg hnot] at heq
    rw [heq]
    rw [heq] at hkeep
    exact ⟨⟨hk.chain hkeep, hag1⟩, hmove, hbest⟩
  · rw [SmartPlayer.tryCell_invalid s st i j hv]
    exact ⟨⟨hk, hag⟩, hmove, hbest⟩

theorem SmartPlayer.getMove_sentinel (b : Board) (hwf : b.WF) (s : Int) (hs : s ≠ 0)
    (hlow : ∀ b1 : Board, b1.size = b.size → b.Agree b1 → ∀ x y : Int, b1.InBounds (x, y) →
      SmartPlayer.evaluateMove b1 s x y ≤ -999999) :
    SmartPlayer.getMove b s = (-1, -1) := by
  have hrow : ∀ (st : SmartState) (i : Nat), i < b.size →
      ((b.Keeps st.board ∧ b.Agree st.board) ∧ st.bestMove = (-1, -1) ∧ st.bestScore = -999999) →
      ((b.Keeps ((List.range b.size).foldl (fun st j => SmartPlayer.tryCell s st i j) st).board ∧
          b.Agree ((List.range b.size).foldl (fun st j => SmartPlayer.tryCell s st i j) st).board) ∧
        ((List.range b.size).foldl (fun st j => SmartPlayer.tryCell s st i j) st).bestMove
          = (-1, -1) ∧
        ((List.range b.size).foldl (fun st j => SmartPlayer.tryCell s st i j) st).bestScore
          = -999999) := by
    intro st i hi hinv
    exact (foldl_track (fun st j => SmartPlayer.tryCell s st i j)
      (fun st => (b.Keeps st.board ∧ b.Agree st.board) ∧
        st.bestMove = (-1, -1) ∧ st.bestScore = -999999)
      (fun _ => True) (fun _ => False) (fun j => j < b.size)
      (fun st j hj hinv =>
        ⟨SmartPlayer.tryCell_low b s hs hlow i hi st j hj hinv, fun _ => trivial,
          fun h => h.elim⟩)
      (List.range b.size) (fun j hj => List.mem_range.mp hj) st hinv).1
  have hall := (foldl_track
    (fun st i => (List.range b.size).foldl (fun st j => SmartPlayer.tryCell s st i j) st)
    (fun st => (b.Keeps st.board ∧ b.Agree st.board) ∧
      st.bestMove = (-1, -1) ∧ st.bestScore = -999999)
    (fun _ => True) (fun _ => False) (fun i => i < b.size)
    (fun st i hi hinv => ⟨hrow st i hi hinv, fun _ => trivial, fun h => h.elim⟩)
    (List.range b.size) (fun i hi => List.mem_range.mp hi)
    { board := b, bestMove := (-1, -1), bestScore := -999999 }
    ⟨⟨Board.Keeps.same hwf, fun _ _ _ _ => rfl⟩, rfl, rfl⟩).1
  exact hall.2.1

/-- C15 as stated fails for large boards: on the board of size 126 whose only
empty cell is (0,0), all other cells being SideB, the single trial of SideA
scores below the initial best score -999999, so `SmartPlayer::getMove` returns
the sentinel (-1, -1) although an empty cell exists. -/
theorem smart_getMove_returns_sentinel :
    bigBoard.WF ∧ bigBoard.isValidMove 0 0 = true ∧ SmartPlayer.getMove bigBoard 1 = (-1, -1) := by
  refine ⟨bigBoard_wf, by decide, ?_⟩
  exact SmartPlayer.getMove_sentinel bigBoard bigBoard_wf 1 (by decide)
    (fun b1 hsize hag x y hin => bigBoard_low_scores b1 hsize hag x y hin)



/-! ## The list of empty cells -/

theorem emptyCells_eq (b : Board) :
    emptyCells b = (List.range b.size).flatMap fun (i : Nat) =>
      (List.range b.size).filterMap fun (j : Nat) =>
        if b.isValidMove i j = true then some ((i : Int), (j : Int)) else none := by
  unfold emptyCells
  simp only [bind_pure_comp, List.map_eq_map, List.filterMap_map]
  rfl

theorem mem_emptyCells (b : Board) (c : Int × Int) :
    c ∈ emptyCells b ↔ b.isValidMove c.1 c.2 = true := by
  rw [emptyCells_eq]
  simp only [List.mem_flatMap, List.mem_filterMap, List.mem_range]
  constructor
  · rintro ⟨i, _, j, _, h⟩
    split at h
    · rename_i hv
      simp only [Option.some.injEq] at h
      subst h
      exact hv
    · simp at h
  · intro hv
    obtain ⟨⟨h1, h2, h3, h4⟩, -⟩ := (b.isValidMove_iff c.1 c.2).mp hv
    simp only at h1 h2 h3 h4
    refine ⟨c.1.toNat, by omega, c.2.toNat, by omega, ?_⟩
    rw [Int.toNat_of_nonneg h1, Int.toNat_of_nonneg h3, if_pos hv]

theorem emptyCells_rowMajor (b : Board) : (emptyCells b).Pairwise RowMajorLt := by
  rw [emptyCells_eq, List.pairwise_flatMap]
  constructor
  · intro i _
    refine List.Pairwise.filterMap _ ?_ (List.pairwise_lt_range b.size)
    intro j j1 hlt c hc d hd
    split at hc
    · split at hd
      · simp only [Option.mem_def, Option.some.injEq] at hc hd
        subst hc hd
        right
        exact ⟨rfl, by simpa using hlt⟩
      · simp at hd
    · simp at hc
  · refine (List.pairwise_lt_range b.size).imp ?_
    intro i i1 hlt c hc d hd
    obtain ⟨j, _, hj⟩ := List.mem_filterMap.mp hc
    obtain ⟨j1, _, hj1⟩ := List.mem_filterMap.mp hd
    split at hj
    · split at hj1
      · simp only [Option.some.injEq] at hj hj1
        subst hj hj1
        left
        simpa using hlt
      · simp at hj1
    · simp at hj

theorem rowMajorLt_irrefl (c : Int × Int) : ¬ RowMajorLt c c := by
  unfold RowMajorLt
  omega

theorem emptyCells_nodup (b : Board) : (emptyCells b).Nodup := by
  have h := emptyCells_rowMajor b
  refine h.imp ?_
  intro c d hlt heq
  rw [heq] at hlt
  exact rowMajorLt_irrefl d hlt

theorem Board.emptyCells_eq_nil_iff (b : Board) : emptyCells b = [] ↔ b.isFull = true := by
  rw [b.isFull_iff, List.eq_nil_iff_forall_not_mem]
  constructor
  · intro h r c hr hc h0
    refine h ((r : Int), (c : Int)) ((mem_emptyCells b _).mpr ?_)
    refine (b.isValidMove_iff r c).mpr ⟨?_, h0⟩
    unfold Board.InBounds
    simp only
    omega
  · intro h c hc
    obtain ⟨⟨h1, h2, h3, h4⟩, h0⟩ := (b.isValidMove_iff c.1 c.2).mp ((mem_emptyCells b c).mp hc)
    have := h c.1.toNat c.2.toNat (by omega) (by omega)
    rw [Int.toNat_of_nonneg h1, Int.toNat_of_nonneg h3] at this
    exact this h0

theorem RandomPlayer.getMove_eq (b : Board) (hk : emptyCells b ≠ []) (d : Nat) :
    d % (emptyCells b).length < (emptyCells b).length ∧
    (emptyCells b)[d % (emptyCells b).length]? = some (RandomPlayer.getMove b d) := by
  have hpos : 0 < (emptyCells b).length := List.length_pos.mpr hk
  have hlt : d % (emptyCells b).length < (emptyCells b).length := Nat.mod_lt _ hpos
  refine ⟨hlt, ?_⟩
  unfold RandomPlayer.getMove
  simp only [hk, ne_eq, not_false_eq_true, if_true]
  rw [List.getD_eq_getElem _ _ hlt, List.getElem?_eq_getElem hlt]

/-- C16: on a board with at least one empty cell and for every draw `d`,
`RandomPlayer::getMove` returns the entry at index `d mod k` of the list of the
`k` empty cells; that list holds exactly the cells with `isValidMove`, in
row-major order; so the returned coordinate satisfies `isValidMove` and every
empty cell is returned for some draw.  The method only reads the board. -/
theorem random_getMove_spec (b : Board) (hk : emptyCells b ≠ []) (d : Nat) :
    (emptyCells b)[d % (emptyCells b).length]? = some (RandomPlayer.getMove b d) ∧
    (∀ c, c ∈ emptyCells b ↔ b.isValidMove c.1 c.2 = true) ∧
    (emptyCells b).Pairwise (fun c e => c.1 < e.1 ∨ (c.1 = e.1 ∧ c.2 < e.2)) ∧
    b.isValidMove (RandomPlayer.getMove b d).1 (RandomPlayer.getMove b d).2 = true ∧
    (∀ c, b.isValidMove c.1 c.2 = true → ∃ d1, RandomPlayer.getMove b d1 = c) := by
  obtain ⟨hlt, hget⟩ := RandomPlayer.getMove_eq b hk d
  refine ⟨hget, mem_emptyCells b, emptyCells_rowMajor b, ?_, ?_⟩
  · exact (mem_emptyCells b _).mp (List.getElem?_mem hget)
  · intro c hc
    obtain ⟨i, hi, hci⟩ := List.getElem_of_mem ((mem_emptyCells b c).mpr hc)
    refine ⟨i, ?_⟩
    have h2 := (RandomPlayer.getMove_eq b hk i).2
    rw [Nat.mod_eq_of_lt hi, List.getElem?_eq_getElem hi, hci] at h2
    exact (Option.some.inj h2).symm

/-- On `cornerBoard` the empty cells are (0,1), (1,0), (1,1) and the draw 7 selects
the one at index 7 mod 3 = 1. -/
theorem random_getMove_spec_witness :
    emptyCells cornerBoard ≠ [] ∧ emptyCells cornerBoard = [(0, 1), (1, 0), (1, 1)] ∧
    RandomPlayer.getMove cornerBoard 7 = (1, 0) ∧
    (emptyCells cornerBoard)[7 % (emptyCells cornerBoard).length]?
      = some (RandomPlayer.getMove cornerBoard 7) :=
  ⟨by decide, by decide, by decide, (random_getMove_spec cornerBoard (by decide) 7).1⟩


/-! ## Playouts of the Monte Carlo player -/

theorem PlayoutState.pick_mem (draws : Nat → Nat) (st : PlayoutState)
    (hne : emptyCells st.tempBoard ≠ []) : st.pick draws ∈ emptyCells st.tempBoard := by
  unfold PlayoutState.pick
  have hlt : draws st.drawn % (emptyCells st.tempBoard).length < (emptyCells st.tempBoard).length :=
    Nat.mod_lt _ (List.length_pos.mpr hne)
  rw [List.getD_eq_getElem _ _ hlt]
  exact List.getElem_mem hlt

theorem MonteCarloPlayer.playout_won (p : Int) (draws : Nat → Nat) (fuel : Nat)
    (st : PlayoutState) (hw : st.tempBoard.hasWon st.currentPlayer = true) :
    MonteCarloPlayer.playout p draws (fuel + 1) st =
      some (decide (st.currentPlayer = p), { st with iterations := st.iterations + 1 }) := by
  simp only [MonteCarloPlayer.playout, hw, if_true]

theorem MonteCarloPlayer.playout_full (p : Int) (draws : Nat → Nat) (fuel : Nat)
    (st : PlayoutState) (hw : st.tempBoard.hasWon st.currentPlayer = false)
    (hf : st.tempBoard.isFull = true) :
    MonteCarloPlayer.playout p draws (fuel + 1) st =
      some (false, { st with iterations := st.iterations + 1 }) := by
  simp [MonteCarloPlayer.playout, hw, hf]

theorem MonteCarloPlayer.playout_move (p : Int) (draws : Nat → Nat) (fuel : Nat)
    (st : PlayoutState) (hw : st.tempBoard.hasWon st.currentPlayer = false)
    (hf : st.tempBoard.isFull = false) :
    MonteCarloPlayer.playout p draws (fuel + 1) st =
      MonteCarloPlayer.playout p draws fuel (st.next draws) := by
  have hne : emptyCells st.tempBoard ≠ [] := by
    intro h
    rw [st.tempBoard.emptyCells_eq_nil_iff, hf] at h
    exact absurd h (by simp)
  have hv := (mem_emptyCells _ _).mp (st.pick_mem draws hne)
  have hmk : st.tempBoard.makeMove (st.pick draws).1 (st.pick draws).2 st.currentPlayer =
      (true, st.tempBoard.setCell (st.pick draws).1 (st.pick draws).2 st.currentPlayer) := by
    unfold Board.makeMove
    rw [if_pos hv]
  have hmk2 : (st.tempBoard.makeMove (st.pick draws).1 (st.pick draws).2 st.currentPlayer).2 =
      st.tempBoard.setCell (st.pick draws).1 (st.pick draws).2 st.currentPlayer := by
    rw [hmk]
  rw [MonteCarloPlayer.playout]
  simp only [hw, hf, hne, ne_eq, not_false_eq_true, if_true, Bool.false_eq_true, if_false]
  unfold PlayoutState.next
  rw [← hmk2]
  rfl

theorem emptyCells_setCell_length (b : Board) (hwf : b.WF) (c : Int × Int)
    (hc : c ∈ emptyCells b) (s : Int) (hs : s ≠ 0) :
    (∀ x, x ∈ emptyCells (b.setCell c.1 c.2 s) → x ∈ emptyCells b ∧ x ≠ c) ∧
    (emptyCells (b.setCell c.1 c.2 s)).length + 1 ≤ (emptyCells b).length := by
  have hv := (b.isValidMove_iff c.1 c.2).mp ((mem_emptyCells b c).mp hc)
  have hsub : ∀ x, x ∈ emptyCells (b.setCell c.1 c.2 s) → x ∈ emptyCells b ∧ x ≠ c := by
    intro x hx
    obtain ⟨hin, h0⟩ := (Board.isValidMove_iff _ x.1 x.2).mp ((mem_emptyCells _ x).mp hx)
    have hin' : b.InBounds (x.1, x.2) := hin
    have hne : x ≠ c := by
      intro heq
      rw [heq, Board.cell_setCell_self hwf hv.1 s] at h0
      exact hs h0
    have hne' : (x.1, x.2) ≠ (c.1, c.2) := hne
    rw [b.cell_setCell_ne s hv.1 hin' hne'] at h0
    exact ⟨(mem_emptyCells b x).mpr ((b.isValidMove_iff x.1 x.2).mpr ⟨hin', h0⟩), hne⟩
  refine ⟨hsub, ?_⟩
  have hsubset : emptyCells (b.setCell c.1 c.2 s) ⊆ (emptyCells b).erase c := by
    intro x hx
    obtain ⟨h1, h2⟩ := hsub x hx
    exact (List.mem_erase_of_ne h2).mpr h1
  have hle := ((emptyCells_nodup (b.setCell c.1 c.2 s)).subperm hsubset).length_le
  rw [List.length_erase_of_mem hc] at hle
  have hpos : 0 < (emptyCells b).length := List.length_pos.mpr (List.ne_nil_of_mem hc)
  omega

theorem MonteCarloPlayer.playout_post (p : Int) (draws : Nat → Nat) :
    ∀ (n : Nat) (st0 : PlayoutState), st0.tempBoard.WF →
      (emptyCells st0.tempBoard).length ≤ n → st0.currentPlayer ≠ 0 →
      ∃ (win : Bool) (st : PlayoutState) (placed : List ((Int × Int) × Int)),
        (∀ fuel, n + 1 ≤ fuel → MonteCarloPlayer.playout p draws fuel st0 = some (win, st)) ∧
        st.moves = st0.moves ++ placed ∧
        st.iterations = st0.iterations + placed.length + 1 ∧
        placed.length ≤ (emptyCells st0.tempBoard).length ∧
        (placed.map Prod.fst).Nodup ∧
        (∀ m ∈ placed, m.1 ∈ emptyCells st0.tempBoard) ∧
        (∀ (i : Nat) (m : (Int × Int) × Int), placed[i]? = some m →
          m.2 = if i % 2 = 0 then st0.currentPlayer else -st0.currentPlayer) := by
  intro n
  induction n with
  | zero =>
    intro st0 _ hlen _
    have hnil : emptyCells st0.tempBoard = [] := List.length_eq_zero.mp (Nat.le_zero.mp hlen)
    have hfull : st0.tempBoard.isFull = true := (st0.tempBoard.emptyCells_eq_nil_iff).mp hnil
    cases hw : st0.tempBoard.hasWon st0.currentPlayer with
    | true =>
      refine ⟨decide (st0.currentPlayer = p), { st0 with iterations := st0.iterations + 1 }, [],
        ?_, by simp, by simp, by simp, by simp, by simp, by simp⟩
      intro fuel hfuel
      obtain ⟨f, rfl⟩ : ∃ f, fuel = f + 1 := ⟨fuel - 1, by omega⟩
      exact MonteCarloPlayer.playout_won p draws f st0 hw
    | false =>
      refine ⟨false, { st0 with iterations := st0.iterations + 1 }, [],
        ?_, by simp, by simp, by simp, by simp, by simp, by simp⟩
      intro fuel hfuel
      obtain ⟨f, rfl⟩ : ∃ f, fuel = f + 1 := ⟨fuel - 1, by omega⟩
      exact MonteCarloPlayer.playout_full p draws f st0 hw hfull
  | succ n ih =>
    intro st0 hwf hlen hcur
    cases hw : st0.tempBoard.hasWon st0.currentPlayer with
    | true =>
      refine ⟨decide (st0.currentPlayer = p), { st0 with iterations := st0.iterations + 1 }, [],
        ?_, by simp, by simp, by simp, by simp, by simp, by simp⟩
      intro fuel hfuel
      obtain ⟨f, rfl⟩ : ∃ f, fuel = f + 1 := ⟨fuel - 1, by omega⟩
      exact MonteCarloPlayer.playout_won p draws f st0 hw
    | false =>
      cases hf : st0.tempBoard.isFull with
      | true =>
        refine ⟨false, { st0 with iterations := st0.iterations + 1 }, [],
          ?_, by simp, by simp, by simp, by simp, by simp, by simp⟩
        intro fuel hfuel
        obtain ⟨f, rfl⟩ : ∃ f, fuel = f + 1 := ⟨fuel - 1, by omega⟩
        exact MonteCarloPlayer.playout_full p draws f st0 hw hf
      | false =>
        have hne : emptyCells st0.tempBoard ≠ [] := by
          intro h
          rw [st0.tempBoard.emptyCells_eq_nil_iff, hf] at h
          exact absurd h (by simp)
        have hpick := st0.pick_mem draws hne
        obtain ⟨hsub, hless⟩ := emptyCells_setCell_length st0.tempBoard hwf (st0.pick draws)
          hpick st0.currentPlayer hcur
        have hwf1 : (st0.next draws).tempBoard.WF := Board.WF_setCell hwf _ _ _
        have hlen1 : (emptyCells (st0.next draws).tempBoard).length ≤ n := by
          have : (st0.next draws).tempBoard =
              st0.tempBoard.setCell (st0.pick draws).1 (st0.pick draws).2 st0.currentPlayer := rfl
          rw [this]
          omega
        have hcur1 : (st0.next draws).currentPlayer ≠ 0 := by
          show -st0.currentPlayer ≠ 0
          omega
        obtain ⟨win, st, placed, hrun, hmoves, hiter, hcount, hnodup, hmem, hside⟩ :=
          ih (st0.next draws) hwf1 hlen1 hcur1
        refine ⟨win, st, (st0.pick draws, st0.currentPlayer) :: placed, ?_, ?_, ?_, ?_, ?_, ?_, ?_⟩
        · intro fuel hfuel
          obtain ⟨f, rfl⟩ : ∃ f, fuel = f + 1 := ⟨fuel - 1, by omega⟩
          rw [MonteCarloPlayer.playout_move p draws f st0 hw hf]
          exact hrun f (by omega)
        · rw [hmoves]
          show (st0.moves ++ [(st0.pick draws, st0.currentPlayer)]) ++ placed = _
          simp
        · rw [hiter]
          show st0.iterations + 1 + placed.length + 1 = _
          simp only [List.length_cons]
          omega
        · simp only [List.length_cons]
          have : (st0.next draws).tempBoard =
              st0.tempBoard.setCell (st0.pick draws).1 (st0.pick draws).2 st0.currentPlayer := rfl
          rw [this] at hcount
          omega
        · rw [List.map_cons, List.nodup_cons]
          refine ⟨?_, hnodup⟩
          intro hin
          obtain ⟨m, hm, hm1⟩ := List.mem_map.mp hin
          have := (hsub m.1 (hmem m hm)).2
          exact this hm1
        · intro m hm
          rcases List.mem_cons.mp hm with rfl | hm
          · exact hpick
          · exact (hsub m.1 (hmem m hm)).1
        · intro i m hi
          cases i with
          | zero =>
            simp only [List.getElem?_cons_zero, Option.some.injEq] at hi
            subst hi
            simp
          | succ i =>
            simp only [List.getElem?_cons_succ] at hi
            have := hside i m hi
            rw [this]
            show (if i % 2 = 0 then -st0.currentPlayer else - -st0.currentPlayer) = _
            rcases Nat.mod_two_eq_zero_or_one i with h | h
            · have h1 : (i + 1) % 2 = 1 := by omega
              simp [h, h1]
            · have h1 : (i + 1) % 2 = 0 := by omega
              simp [h, h1]

/-- C18: every playout of `runSimulations` terminates.  From a well-formed board
with `e` empty cells, for both sides, every sequence of draws and every
iteration bound above `e`, the loop of the playout returns; it runs at most
`e + 1` iterations, every iteration but the last places exactly one stone, the
stones go on distinct cells that were empty in the starting copy, and they
alternate sides beginning with the opponent of the strategy's side. -/
theorem playout_terminates (b : Board) (hwf : b.WF) (p : Int) (hp : p = 1 ∨ p = -1)
    (draws : Nat → Nat) (k : Nat) :
    ∃ (win : Bool) (st : PlayoutState),
      (∀ fuel, (emptyCells b).length + 1 ≤ fuel →
        MonteCarloPlayer.playout p draws fuel (MonteCarloPlayer.playoutStart b p k)
          = some (win, st)) ∧
      st.iterations ≤ (emptyCells b).length + 1 ∧
      st.iterations = st.moves.length + 1 ∧
      (st.moves.map Prod.fst).Nodup ∧
      (∀ m ∈ st.moves, b.isValidMove m.1.1 m.1.2 = true) ∧
      (∀ (i : Nat) (m : (Int × Int) × Int), st.moves[i]? = some m →
        m.2 = if i % 2 = 0 then -p else p) := by
  have hcur : (MonteCarloPlayer.playoutStart b p k).currentPlayer ≠ 0 := by
    show -p ≠ 0
    rcases hp with rfl | rfl <;> decide
  obtain ⟨win, st, placed, hrun, hmoves, hiter, hcount, hnodup, hmem, hside⟩ :=
    MonteCarloPlayer.playout_post p draws (emptyCells b).length
      (MonteCarloPlayer.playoutStart b p k) hwf (le_refl _) hcur
  have hm : st.moves = placed := by
    rw [hmoves]
    show [] ++ placed = placed
    simp
  have hit : st.iterations = placed.length + 1 := by
    rw [hiter]
    show 0 + placed.length + 1 = _
    omega
  have hcount' : placed.length ≤ (emptyCells b).length := hcount
  refine ⟨win, st, hrun, ?_, ?_, ?_, ?_, ?_⟩
  · omega
  · rw [hm, hit]
  · rw [hm]; exact hnodup
  · intro m hmm
    rw [hm] at hmm
    exact (mem_emptyCells b m.1).mp (hmem m hmm)
  · intro i m hi
    rw [hm] at hi
    have := hside i m hi
    rw [this]
    show (if i % 2 = 0 then -p else - -p) = _
    simp

/-- A playout from `cornerBoard` for SideA with all draws equal to 0: three stones
in four iterations, SideB first. -/
theorem playout_terminates_witness :
    cornerBoard.WF ∧ ((1 : Int) = 1 ∨ (1 : Int) = -1) ∧
    ∃ (win : Bool) (st : PlayoutState),
      (∀ fuel, (emptyCells cornerBoard).length + 1 ≤ fuel →
        MonteCarloPlayer.playout 1 (fun _ => 0) fuel (MonteCarloPlayer.playoutStart cornerBoard 1 0)
          = some (win, st)) ∧
      st.iterations ≤ (emptyCells cornerBoard).length + 1 ∧
      st.iterations = st.moves.length + 1 ∧
      (st.moves.map Prod.fst).Nodup ∧
      (∀ m ∈ st.moves, cornerBoard.isValidMove m.1.1 m.1.2 = true) ∧
      (∀ (i : Nat) (m : (Int × Int) × Int), st.moves[i]? = some m →
        m.2 = if i % 2 = 0 then -1 else 1) :=
  ⟨by unfold Board.WF; decide, Or.inl rfl,
    playout_terminates cornerBoard (by unfold Board.WF; decide) 1 (Or.inl rfl) (fun _ => 0) 0⟩


/-! ## The search with its log of entries -/

theorem exploreNeighboursLog_erase
    (dfs : Int → Int → List (List Bool) → Option (Bool × List (List Bool)))
    (dfsLog : Int → Int → SearchLog → Option (Bool × SearchLog))
    (h : ∀ x y st, (dfsLog x y st).map (fun r => (r.1, r.2.visited)) = dfs x y st.visited) :
    ∀ (l : List (Int × Int)) (st : SearchLog),
      (exploreNeighboursLog dfsLog l st).map (fun r => (r.1, r.2.visited))
        = exploreNeighbours dfs l st.visited := by
  intro l
  induction l with
  | nil => intro st; rfl
  | cons d rest ih =>
    obtain ⟨nx, ny⟩ := d
    intro st
    cases hv : visitedGet st.visited nx ny with
    | true =>
      simp only [exploreNeighboursLog, exploreNeighbours, hv, if_true]
      exact ih st
    | false =>
      have hd := h nx ny st
      cases hres : dfsLog nx ny st with
      | none =>
        rw [hres] at hd
        simp only [exploreNeighboursLog, exploreNeighbours, hv, hres, ← hd]
        rfl
      | some r =>
        obtain ⟨win, st1⟩ := r
        rw [hres] at hd
        cases win with
        | true =>
          simp only [exploreNeighboursLog, exploreNeighbours, hv, hres, ← hd]
          rfl
        | false =>
          simp only [exploreNeighboursLog, exploreNeighbours, hv, hres, ← hd]
          exact ih st1

theorem Board.dfsPathFindingLog_erase (b : Board) (p : Int) :
    ∀ (fuel : Nat) (x y : Int) (st : SearchLog),
      (b.dfsPathFindingLog p fuel x y st).map (fun r => (r.1, r.2.visited))
        = b.dfsPathFinding p fuel x y st.visited := by
  intro fuel
  induction fuel with
  | zero => intro x y st; rfl
  | succ fuel ih =>
    intro x y st
    by_cases ht : (p = 1 ∧ y = (b.size : Int) - 1) ∨ (p = -1 ∧ x = (b.size : Int) - 1)
    · simp only [Board.dfsPathFindingLog, Board.dfsPathFinding, if_pos ht]
      rfl
    · simp only [Board.dfsPathFindingLog, Board.dfsPathFinding, if_neg ht]
      exact exploreNeighboursLog_erase _ _ ih _ _

theorem Board.hasWonLoopLog_erase (b : Board) (p : Int) (fuel : Nat) (start : Nat → Int × Int) :
    ∀ (l : List Nat) (st : SearchLog),
      (b.hasWonLoopLog p fuel start l st).map (fun r => r.1)
        = b.hasWonLoop p fuel start l st.visited := by
  intro l
  induction l with
  | nil => intro st; rfl
  | cons i rest ih =>
    intro st
    by_cases hc : b.cell (start i).1 (start i).2 = p
    · have hd := b.dfsPathFindingLog_erase p fuel (start i).1 (start i).2 st
      cases hres : b.dfsPathFindingLog p fuel (start i).1 (start i).2 st with
      | none =>
        rw [hres] at hd
        simp only [Board.hasWonLoopLog, Board.hasWonLoop, hc, if_true, hres, ← hd]
        rfl
      | some r =>
        obtain ⟨win, st1⟩ := r
        rw [hres] at hd
        cases win with
        | true =>
          simp only [Board.hasWonLoopLog, Board.hasWonLoop, hc, if_true, hres, ← hd]
          rfl
        | false =>
          simp only [Board.hasWonLoopLog, Board.hasWonLoop, hc, if_true, hres, ← hd]
          exact ih st1
    · simp only [Board.hasWonLoopLog, Board.hasWonLoop, hc, if_false]
      exact ih st

/-- Dropping the log from `hasWonLog` gives `hasWonFuel`. -/
theorem Board.hasWonLog_erase (b : Board) (fuel : Nat) (p : Int) :
    (b.hasWonLog fuel p).map (fun r => r.1) = b.hasWonFuel fuel p := by
  unfold Board.hasWonLog Board.hasWonFuel
  by_cases h1 : p = 1
  · simp only [h1, if_true, Option.map_map]
    exact b.hasWonLoopLog_erase 1 fuel _ _ _
  · by_cases h2 : p = -1
    · subst h2
      rw [if_neg (by decide), if_pos rfl, if_neg (by decide), if_pos rfl, Option.map_map]
      exact b.hasWonLoopLog_erase (-1) fuel _ _ _
    · simp only [h1, h2, if_false]
      rfl

/-- C17 (violated by the code): on the board of size 3 with SideA on (0,0), (1,1)
and (2,0), one call of `hasWon(1)` enters `dfsPathFinding` on the cells (0,0),
(1,1), (2,0) and then on (2,0) a second time: the loop over the starting edge
calls the search on (2,0) without testing `visited`.  Dropping the log gives the
result of `hasWon(1)`, which is false. -/
theorem hasWon_enters_cell_twice :
    zigzagBoard.hasWonLog (zigzagBoard.size * zigzagBoard.size + 1) 1
      = some (false, [(0, 0), (1, 1), (2, 0), (2, 0)]) ∧
    ([(0, 0), (1, 1), (2, 0), (2, 0)] : List (Int × Int)).count (2, 0) = 2 ∧
    (zigzagBoard.hasWonLog (zigzagBoard.size * zigzagBoard.size + 1) 1).map (fun r => r.1)
      = some (zigzagBoard.hasWon 1) := by
  decide



/-! ## Filling an empty cell keeps a connection -/

theorem Board.Link.fill {b : Board} {s : Int} (hs : s ≠ 0) {r c : Int} (t : Int)
    (hin : b.InBounds (r, c)) (h0 : b.cell r c = 0) {x d : Int × Int} (h : b.Link s x d) :
    (b.setCell r c t).Link s x d := by
  obtain ⟨hadj, hd, hcell⟩ := (b.mem_getNeighbours s x.1 x.2 d).mp h
  refine ((b.setCell r c t).mem_getNeighbours s x.1 x.2 d).mpr ⟨hadj, hd, ?_⟩
  have hne : (d.1, d.2) ≠ (r, c) := by
    intro heq
    have e1 : d.1 = r := congrArg Prod.fst heq
    have e2 : d.2 = c := congrArg Prod.snd heq
    rw [e1, e2, h0] at hcell
    exact hs hcell.symm
  rw [b.cell_setCell_ne t hin hd hne]
  exact hcell

theorem Board.hasWon_fill (b : Board) (s : Int) (hs : s = 1 ∨ s = -1) (r c t : Int)
    (hin : b.InBounds (r, c)) (h0 : b.cell r c = 0) (hw : b.hasWon s = true) :
    (b.setCell r c t).hasWon s = true := by
  have hs0 : s ≠ 0 := by rcases hs with rfl | rfl <;> decide
  obtain ⟨i, hi, hcell, tgt, hreach, htarget⟩ := (b.hasWon_spec s hs).2.mp hw
  refine ((b.setCell r c t).hasWon_spec s hs).2.mpr ⟨i, hi, ?_, tgt, ?_, htarget⟩
  · have hstart : b.InBounds ((startCell s i).1, (startCell s i).2) := by
      unfold startCell Board.InBounds
      split <;> simp <;> omega
    have hne : ((startCell s i).1, (startCell s i).2) ≠ (r, c) := by
      intro heq
      have e1 : (startCell s i).1 = r := congrArg Prod.fst heq
      have e2 : (startCell s i).2 = c := congrArg Prod.snd heq
      rw [e1, e2, h0] at hcell
      exact hs0 hcell.symm
    rw [b.cell_setCell_ne t hin hstart hne]
    exact hcell
  · exact Relation.ReflTransGen.mono (fun _ _ h => Board.Link.fill hs0 t hin h0 h) hreach

/-- C21: a connection win is permanent under legal play.  If `hasWon(s)` is true
for a side `s ∈ {1, -1}` and `makeMove(r, c, t)` with `t ∈ {1, -1}` succeeds,
then `hasWon(s)` is true on the resulting board. -/
theorem hasWon_permanent (b : Board) (s : Int) (hs : s = 1 ∨ s = -1) (hw : b.hasWon s = true)
    (r c t : Int) (_ht : t = 1 ∨ t = -1) (hmove : (b.makeMove r c t).1 = true) :
    (b.makeMove r c t).2.hasWon s = true := by
  have hv : b.isValidMove r c = true := by
    by_contra hv
    unfold Board.makeMove at hmove
    rw [if_neg hv] at hmove
    exact absurd hmove (by simp)
  obtain ⟨hin, h0⟩ := (b.isValidMove_iff r c).mp hv
  have hmk : b.makeMove r c t = (true, b.setCell r c t) := by
    unfold Board.makeMove
    rw [if_pos hv]
  rw [hmk]
  exact b.hasWon_fill s hs r c t hin h0 hw

/-- Scenario B stays won for SideA after SideB plays (1,1). -/
theorem hasWon_permanent_witness :
    ((1 : Int) = 1 ∨ (1 : Int) = -1) ∧ scenarioB.hasWon 1 = true ∧
    ((-1 : Int) = 1 ∨ (-1 : Int) = -1) ∧ (scenarioB.makeMove 1 1 (-1)).1 = true ∧
    (scenarioB.makeMove 1 1 (-1)).2.hasWon 1 = true :=
  ⟨Or.inl rfl, by decide, Or.inr rfl, by decide,
    hasWon_permanent scenarioB 1 (Or.inl rfl) (by decide) 1 1 (-1) (Or.inr rfl) (by decide)⟩

/-- C22 (violated by the code): on the board of size 2 with SideA on (0,0), (1,1)
and SideB on (0,1), (1,0), both `hasWon(1)` and `hasWon(-1)` are true: SideA
connects (0,0) to (1,1) through the offset (+1,+1) and SideB connects (0,1) to
(1,0) through the offset (+1,-1), two links that cross. -/
theorem both_sides_win :
    crossBoard.WF ∧ crossBoard.Marks ∧ 1 ≤ crossBoard.size ∧
    crossBoard.hasWon 1 = true ∧ crossBoard.hasWon (-1) = true ∧
    (1, 1) ∈ crossBoard.getNeighbours 1 0 0 ∧ (1, 0) ∈ crossBoard.getNeighbours (-1) 0 1 := by
  refine ⟨by unfold Board.WF; decide, by unfold Board.Marks; decide, by decide, by decide,
    by decide, by decide, by decide⟩

/-! ## Simulations from a position that is already won -/

theorem MonteCarloPlayer.playout_already_won (b : Board) (s : Int) (hs : s = 1 ∨ s = -1)
    (hw : b.hasWon s = true) (hopp : b.hasWon (-s) = false) (hfull : b.isFull = false)
    (draws : Nat → Nat) (k : Nat) :
    ∃ st, MonteCarloPlayer.playout s draws ((emptyCells b).length + 1)
        (MonteCarloPlayer.playoutStart b s k) = some (true, st) ∧ st.drawn = k + 1 := by
  have hne : emptyCells b ≠ [] := by
    intro h
    rw [b.emptyCells_eq_nil_iff, hfull] at h
    exact absurd h (by simp)
  obtain ⟨n, hn⟩ : ∃ n, (emptyCells b).length = n + 1 :=
    ⟨(emptyCells b).length - 1, by have := List.length_pos.mpr hne; omega⟩
  have hpick := (MonteCarloPlayer.playoutStart b s k).pick_mem draws hne
  obtain ⟨hin, h0⟩ := (b.isValidMove_iff _ _).mp ((mem_emptyCells b _).mp hpick)
  have hwon1 : ((MonteCarloPlayer.playoutStart b s k).next draws).tempBoard.hasWon
      ((MonteCarloPlayer.playoutStart b s k).next draws).currentPlayer = true := by
    show (b.setCell _ _ (-s)).hasWon (- -s) = true
    rw [neg_neg]
    exact b.hasWon_fill s hs _ _ (-s) hin h0 hw
  rw [hn, MonteCarloPlayer.playout_move s draws (n + 1) (MonteCarloPlayer.playoutStart b s k)
    hopp hfull, MonteCarloPlayer.playout_won s draws n _ hwon1]
  refine ⟨{ (MonteCarloPlayer.playoutStart b s k).next draws with
    iterations := ((MonteCarloPlayer.playoutStart b s k).next draws).iterations + 1 }, ?_, rfl⟩
  have hdec : decide (((MonteCarloPlayer.playoutStart b s k).next draws).currentPlayer = s)
      = true := by
    have : ((MonteCarloPlayer.playoutStart b s k).next draws).currentPlayer = s := by
      show - -s = s
      rw [neg_neg]
    simp [this]
  rw [hdec]

theorem MonteCarloPlayer.playout_full_won (b : Board) (s : Int)
    (hopp : b.hasWon (-s) = false) (hfull : b.isFull = true) (draws : Nat → Nat) (k : Nat) :
    ∃ st, MonteCarloPlayer.playout s draws ((emptyCells b).length + 1)
        (MonteCarloPlayer.playoutStart b s k) = some (false, st) ∧ st.drawn = k :=
  ⟨_, MonteCarloPlayer.playout_full s draws _ (MonteCarloPlayer.playoutStart b s k) hopp hfull,
    rfl⟩

theorem MonteCarloPlayer.simulations_fold (b : Board) (s : Int) (draws : Nat → Nat) (win : Bool)
    (d : Nat)
    (hplay : ∀ k, ∃ st, MonteCarloPlayer.playout s draws ((emptyCells b).length + 1)
        (MonteCarloPlayer.playoutStart b s k) = some (win, st) ∧ st.drawn = k + d) :
    ∀ (l : List Nat) (wins : Int) (k : Nat),
      l.foldl (fun acc _ =>
        match acc with
        | none => none
        | some (wins, drawn) =>
          match MonteCarloPlayer.playout s draws ((emptyCells b).length + 1)
              (MonteCarloPlayer.playoutStart b s drawn) with
          | none => none
          | some (win, st) => some (if win then wins + 1 else wins, st.drawn))
        (some (wins, k))
      = some (if win then wins + (l.length : Int) else wins, k + d * l.length) := by
  intro l
  induction l with
  | nil =>
    intro wins k
    cases win <;> simp
  | cons a rest ih =>
    intro wins k
    obtain ⟨st, hst, hdrawn⟩ := hplay k
    rw [List.foldl_cons]
    simp only [hst]
    rw [ih, hdrawn]
    cases win with
    | true =>
      simp only [if_true, List.length_cons]
      congr 2
      · push_cast
        ring
      · ring
    | false =>
      simp only [Bool.false_eq_true, if_false, List.length_cons]
      congr 2
      ring

/-- C23 as stated fails on a board without empty cell: on the full board of size 2
with SideA on the top row and SideB on the bottom row, SideA has a connection
win and SideB has none, yet `runSimulations` for SideA returns 0: every playout
stops at the fullness test after testing only the opponent's win. -/
theorem runSimulations_full_board_zero :
    fullWonBoard.hasWon 1 = true ∧ fullWonBoard.hasWon (-1) = false ∧
    fullWonBoard.isFull = true ∧
    MonteCarloPlayer.runSimulations fullWonBoard 1 (fun _ => 0) 0 = some (0, 0) ∧
    MonteCarloPlayer.runSimulations fullWonBoard 1 (fun _ => 0) 0 ≠ some (100, 0) := by
  decide

/-- C23, amended: on every board on which side `s` has a connection win and the
opponent has none, for every sequence of draws, `runSimulations` returns
`SIMULATIONS` (100) when the board has at least one empty cell (each playout
makes one draw and is counted as a win), and returns 0 when the board has no
empty cell left. -/
theorem runSimulations_already_won (b : Board) (s : Int) (hs : s = 1 ∨ s = -1)
    (hw : b.hasWon s = true) (hopp : b.hasWon (-s) = false) (draws : Nat → Nat) (k : Nat) :
    (b.isFull = false →
      MonteCarloPlayer.runSimulations b s draws k
        = some ((MonteCarloPlayer.SIMULATIONS : Int), k + MonteCarloPlayer.SIMULATIONS) ∧
      MonteCarloPlayer.runSimulations b s draws k = some (100, k + 100)) ∧
    (b.isFull = true → MonteCarloPlayer.runSimulations b s draws k = some (0, k)) := by
  constructor
  · intro hfull
    have h := MonteCarloPlayer.simulations_fold b s draws true 1
      (fun k => MonteCarloPlayer.playout_already_won b s hs hw hopp hfull draws k)
      (List.range MonteCarloPlayer.SIMULATIONS) 0 k
    have h2 : MonteCarloPlayer.runSimulations b s draws k
        = some ((MonteCarloPlayer.SIMULATIONS : Int), k + MonteCarloPlayer.SIMULATIONS) := by
      unfold MonteCarloPlayer.runSimulations
      rw [h]
      simp
    exact ⟨h2, h2⟩
  · intro hfull
    have h := MonteCarloPlayer.simulations_fold b s draws false 0
      (fun k => MonteCarloPlayer.playout_full_won b s hopp hfull draws k)
      (List.range MonteCarloPlayer.SIMULATIONS) 0 k
    unfold MonteCarloPlayer.runSimulations
    rw [h]
    simp

/-- Scenario B, won by SideA and not full, gives 100 wins; the full board
`fullWonBoard` gives none. -/
theorem runSimulations_already_won_witness :
    ((1 : Int) = 1 ∨ (1 : Int) = -1) ∧ scenarioB.hasWon 1 = true ∧
    scenarioB.hasWon (-1) = false ∧ scenarioB.isFull = false ∧
    MonteCarloPlayer.runSimulations scenarioB 1 (fun n => 7 * n + 3) 5 = some (100, 105) ∧
    fullWonBoard.isFull = true ∧
    MonteCarloPlayer.runSimulations fullWonBoard 1 (fun n => 7 * n + 3) 5 = some (0, 5) :=
  ⟨Or.inl rfl, by decide, by decide, by decide,
    ((runSimulations_already_won scenarioB 1 (Or.inl rfl) (by decide) (by decide)
      (fun n => 7 * n + 3) 5).1 (by decide)).2,
    by decide,
    (runSimulations_already_won fullWonBoard 1 (Or.inl rfl) (by decide) (by decide)
      (fun n => 7 * n + 3) 5).2 (by decide)⟩

end Nash
